import Mathlib

/-!
# A model of the `diskycache` indexed `CacheService`

This file is a shallow embedding of the indexed `CacheService` class
(the configuration-based version) of the `diskycache` repository,
together with theorems about its key normalization, secondary indexes,
eviction, expiry, search and deletion behaviour.

Modelling conventions:
* Byte buffers (`Buffer`) are `List Nat` (each entry a byte value).
* Timestamps are milliseconds since the epoch as `Nat`.  ISO-8601 UTC
  strings compare lexicographically exactly as their timestamps compare
  numerically, so string comparisons on `createdAt` in the source are
  modelled by `Nat` comparisons.
* JS `Map` and `Set` preserve insertion order; they are modelled as
  association lists / lists with insertion-order semantics.
* JS numbers in cache keys are modelled as exact decimal values
  `m / 10 ^ e` (IEEE-754 representation error is far below the 10-digit
  `toFixed` granularity for every input considered here; non-finite
  numbers are outside the model).
* The asynchronous single-threaded operations are modelled as pure state
  transformers with an explicit `now` parameter; metadata persistence
  (`saveMetadata` / `scheduleMetadataSave`) only affects the on-disk
  snapshot and the save timer, which no theorem below mentions, so it is
  not part of the state.
-/

set_option maxRecDepth 100000

namespace Disky

/-! ## SHA-256 (`crypto.createHash("sha256")`) over byte sequences.
Words are `Nat` reduced modulo `2 ^ 32`. -/

def w32 (x : Nat) : Nat := x % 4294967296

def rotr32 (n x : Nat) : Nat := w32 ((x >>> n) ||| (x <<< (32 - n)))

def shaCh (x y z : Nat) : Nat := w32 ((x &&& y) ^^^ ((x ^^^ 4294967295) &&& z))

def shaMaj (x y z : Nat) : Nat := w32 ((x &&& y) ^^^ (x &&& z) ^^^ (y &&& z))

def bigSigma0 (x : Nat) : Nat := rotr32 2 x ^^^ rotr32 13 x ^^^ rotr32 22 x

def bigSigma1 (x : Nat) : Nat := rotr32 6 x ^^^ rotr32 11 x ^^^ rotr32 25 x

def smallSigma0 (x : Nat) : Nat := rotr32 7 x ^^^ rotr32 18 x ^^^ (x >>> 3)

def smallSigma1 (x : Nat) : Nat := rotr32 17 x ^^^ rotr32 19 x ^^^ (x >>> 10)

def shaK : List Nat :=
  [1116352408, 1899447441, 3049323471, 3921009573, 961987163,
   1508970993, 2453635748, 2870763221, 3624381080, 310598401,
   607225278, 1426881987, 1925078388, 2162078206, 2614888103,
   3248222580, 3835390401, 4022224774, 264347078, 604807628,
   770255983, 1249150122, 1555081692, 1996064986, 2554220882,
   2821834349, 2952996808, 3210313671, 3336571891, 3584528711,
   113926993, 338241895, 666307205, 773529912, 1294757372,
   1396182291, 1695183700, 1986661051, 2177026350, 2456956037,
   2730485921, 2820302411, 3259730800, 3345764771, 3516065817,
   3600352804, 4094571909, 275423344, 430227734, 506948616,
   659060556, 883997877, 958139571, 1322822218, 1537002063,
   1747873779, 1955562222, 2024104815, 2227730452, 2361852424,
   2428436474, 2756734187, 3204031479, 3329325298]

def chunkAux (n : Nat) : List α → List α → List (List α)
  | [], cur => if cur.isEmpty then [] else [cur.reverse]
  | x :: xs, cur =>
    let cur2 := x :: cur
    if n ≤ cur2.length then cur2.reverse :: chunkAux n xs [] else chunkAux n xs cur2

/-- Split a list into consecutive chunks of `n` elements (the last chunk may be
shorter).  `n = 0` yields the whole list as one chunk; every chunk size used
below is positive. -/
def chunkList (n : Nat) (l : List α) : List (List α) :=
  if n = 0 then [l] else chunkAux n l []

/-- Big-endian 64-bit length footer of the padded message. -/
def lenBytes (bitLen : Nat) : List Nat :=
  [(bitLen >>> 56) % 256, (bitLen >>> 48) % 256, (bitLen >>> 40) % 256, (bitLen >>> 32) % 256,
   (bitLen >>> 24) % 256, (bitLen >>> 16) % 256, (bitLen >>> 8) % 256, bitLen % 256]

def shaPad (msg : List Nat) : List Nat :=
  let padZeros := (119 - msg.length % 64) % 64
  msg ++ [128] ++ List.replicate padZeros 0 ++ lenBytes (8 * msg.length)

/-- Fold each 4 consecutive bytes into one big-endian 32-bit word. -/
def bytesToWords : List Nat → List Nat
  | b0 :: b1 :: b2 :: b3 :: rest => (((b0 * 256 + b1) * 256 + b2) * 256 + b3) :: bytesToWords rest
  | _ => []

/-- Extend the 16 block words to the 64-entry message schedule. -/
def extendWords (w : List Nat) : List Nat :=
  (List.range 48).foldl
    (fun ws _ =>
      let n := ws.length
      let g := fun (j : Nat) => ws.getD j 0
      ws ++ [w32 (smallSigma1 (g (n - 2)) + g (n - 7) + smallSigma0 (g (n - 15)) + g (n - 16))])
    w

structure ShaState where
  a : Nat
  b : Nat
  c : Nat
  d : Nat
  e : Nat
  f : Nat
  g : Nat
  h : Nat

def shaRound (st : ShaState) (kw : Nat × Nat) : ShaState :=
  let t1 := w32 (st.h + bigSigma1 st.e + shaCh st.e st.f st.g + kw.1 + kw.2)
  let t2 := w32 (bigSigma0 st.a + shaMaj st.a st.b st.c)
  ⟨w32 (t1 + t2), st.a, st.b, st.c, w32 (st.d + t1), st.e, st.f, st.g⟩

def shaCompress (h : List Nat) (block : List Nat) : List Nat :=
  let ws := extendWords (bytesToWords block)
  let init : ShaState :=
    ⟨h.getD 0 0, h.getD 1 0, h.getD 2 0, h.getD 3 0, h.getD 4 0, h.getD 5 0, h.getD 6 0, h.getD 7 0⟩
  let st := (shaK.zip ws).foldl (fun s kw => shaRound s (kw.1, kw.2)) init
  [w32 (h.getD 0 0 + st.a), w32 (h.getD 1 0 + st.b), w32 (h.getD 2 0 + st.c),
   w32 (h.getD 3 0 + st.d), w32 (h.getD 4 0 + st.e), w32 (h.getD 5 0 + st.f),
   w32 (h.getD 6 0 + st.g), w32 (h.getD 7 0 + st.h)]

def shaH0 : List Nat :=
  [1779033703, 3144134277, 1013904242, 2773480762,
   1359893119, 2600822924, 528734635, 1541459225]

def sha256Words (msg : List Nat) : List Nat :=
  (chunkList 64 (shaPad msg)).foldl shaCompress shaH0

def hexDigit (n : Nat) : Char :=
  if n < 10 then Char.ofNat (48 + n) else Char.ofNat (87 + n)

def wordHex (x : Nat) : List Char :=
  (List.range 8).map (fun i => hexDigit ((x >>> (28 - 4 * i)) &&& 15))

/-- Hex digest as produced by `digest("hex")`: 64 lowercase hex characters. -/
def sha256Hex (msg : List Nat) : String :=
  String.mk ((sha256Words msg).map wordHex).flatten

/-- The bytes fed to `hash.update` for an ASCII string (for ASCII text the
UTF-8/UTF-16 encodings coincide with the code points; every string hashed in
this development is ASCII). -/
def strBytes (s : String) : List Nat := s.data.map Char.toNat

/-! ## Key data

Cache key input (`string | Record<string, any>`), modelled as the closed
variant type of JSON-like values the normalizer handles: strings, finite
numbers (exact decimals `m / 10 ^ e`), booleans, `null`, `undefined`,
arrays and plain objects.  Lists and field lists are part of the mutual
inductive so that the recursive functions below are structural. -/

mutual

inductive KeyData where
  | str (s : String)
  | num (m : Int) (e : Nat)
  | boolean (b : Bool)
  | null
  | undef
  | arr (xs : KeyList)
  | obj (fs : KeyFields)

inductive KeyList where
  | nil
  | cons (x : KeyData) (xs : KeyList)

inductive KeyFields where
  | nil
  | cons (name : String) (val : KeyData) (fs : KeyFields)

end

def KeyFields.toPairs : KeyFields → List (String × KeyData)
  | .nil => []
  | .cons k v fs => (k, v) :: fs.toPairs

def KeyFields.ofPairs : List (String × KeyData) → KeyFields
  | [] => .nil
  | (k, v) :: ps => .cons k v (KeyFields.ofPairs ps)

def KeyFields.names : KeyFields → List String
  | .nil => []
  | .cons k _ fs => k :: fs.names

/-- First field with the given name (JS objects have unique field names). -/
def KeyFields.getField : KeyFields → String → Option KeyData
  | .nil, _ => none
  | .cons k v fs, n => if k = n then some v else fs.getField n

/-! ## Decimal numbers and JSON serialization -/

/-- Drop trailing zero decimals: canonical decimal representation, matching
the shortest round-trip serialization JS uses for these values. -/
def stripZeros : Int → Nat → Int × Nat
  | m, 0 => (m, 0)
  | m, e + 1 => if m % 10 = 0 then stripZeros (m / 10) e else (m, e + 1)

def padZerosLeft (s : String) (n : Nat) : String :=
  String.mk (List.replicate (n - s.length) '0') ++ s

def decStringNat (n : Nat) (e : Nat) : String :=
  toString (n / 10 ^ e) ++ "." ++ padZerosLeft (toString (n % 10 ^ e)) e

/-- Decimal string of `m / 10 ^ e`, as `JSON.stringify` prints such numbers. -/
def decString (m : Int) (e : Nat) : String :=
  let p := stripZeros m e
  if p.2 = 0 then toString p.1
  else if p.1 < 0 then "-" ++ decStringNat p.1.natAbs p.2
  else decStringNat p.1.natAbs p.2

/-- JSON string escaping as performed by `JSON.stringify`. -/
def escChar (c : Char) : List Char :=
  if c = '"' then ['\\', '"']
  else if c = '\\' then ['\\', '\\']
  else if c.toNat ≥ 32 then [c]
  else if c = Char.ofNat 8 then ['\\', 'b']
  else if c = Char.ofNat 9 then ['\\', 't']
  else if c = Char.ofNat 10 then ['\\', 'n']
  else if c = Char.ofNat 12 then ['\\', 'f']
  else if c = Char.ofNat 13 then ['\\', 'r']
  else ['\\', 'u', '0', '0', hexDigit (c.toNat / 16), hexDigit (c.toNat % 16)]

def quoteJson (s : String) : String :=
  "\"" ++ String.mk (s.data.map escChar).flatten ++ "\""

mutual

/-- Model of `JSON.stringify`.  `none` models the JS result `undefined` (top-level
absent value), whose `.length` access throws inside `estimateSizeInBytes`.
Inside arrays `undefined` serializes as `null`; inside objects the field is
dropped. -/
def jsonStringify : KeyData → Option String
  | .str s => some (quoteJson s)
  | .num m e => some (decString m e)
  | .boolean b => some (if b then "true" else "false")
  | .null => some "null"
  | .undef => none
  | .arr xs => some ("[" ++ String.intercalate "," (jsonArrParts xs) ++ "]")
  | .obj fs => some ("\x7b" ++ String.intercalate "," (jsonObjParts fs) ++ "\x7d")

def jsonArrParts : KeyList → List String
  | .nil => []
  | .cons x xs => ((jsonStringify x).getD "null") :: jsonArrParts xs

def jsonObjParts : KeyFields → List String
  | .nil => []
  | .cons k v fs =>
    match jsonStringify v with
    | some s => (quoteJson k ++ ":" ++ s) :: jsonObjParts fs
    | none => jsonObjParts fs

end

/-! ## Key normalization and hashing (`normalizeForHashing`, `generateCacheKey`) -/

/-- Model of `Number(x.toFixed(p))` on the decimal `m / 10 ^ e`: round to `p` decimal
places, half away from zero toward `+∞` (the ECMAScript `toFixed` rule picks
the larger candidate on ties). -/
def toFixedDec (p : Nat) (m : Int) (e : Nat) : Int × Nat :=
  if e ≤ p then (m * 10 ^ (p - e), p)
  else
    let d : Int := 10 ^ (e - p)
    (Int.fdiv (2 * m + d) (2 * d), p)

/-- Strict lexicographic comparison of character lists by code point — the
UTF-16 code-unit comparison JS `<` performs on strings (identical for the
basic-multilingual-plane text used in cache keys). -/
def charListLt : List Char → List Char → Bool
  | [], [] => false
  | [], _ :: _ => true
  | _ :: _, [] => false
  | a :: as, b :: bs =>
    if a.toNat < b.toNat then true
    else if b.toNat < a.toNat then false
    else charListLt as bs

/-- Model of `a ≤ b` in JS string order. -/
def strLeJS (a b : String) : Bool := !(charListLt b.data a.data)

/-- Model of `Object.keys(data).sort()`: JS sorts strings by UTF-16 code units. -/
def sortStrings (l : List String) : List String :=
  l.insertionSort (fun a b => strLeJS a b = true)

/-- Sort an (already value-normalized) field list by `Object.keys(..).sort()`
and rebuild the object in sorted key order, looking each field up by name
exactly as the source's `for (const key of keys)` loop does.  (The `.getD`
default is unreachable: every sorted name comes from the field list.) -/
def sortFieldsByName (fs : KeyFields) : KeyFields :=
  KeyFields.ofPairs ((sortStrings fs.names).map (fun k => (k, (fs.getField k).getD .undef)))

mutual

/-- Model of `normalizeForHashing`: strings, booleans, `null` and `undefined` are kept;
finite numbers are rounded via `toFixed(precision)`; arrays are normalized
element-wise; objects are rebuilt with lexicographically sorted field names and
normalized field values.  (Normalizing each value and then sorting the fields
equals sorting `Object.keys` first and then normalizing each looked-up value,
since normalization is applied field-wise; non-finite numbers are outside the
decimal model.) -/
def normalizeForHashing (prec : Nat) : KeyData → KeyData
  | .str s => .str s
  | .num m e => ((fun p => .num p.1 p.2) (toFixedDec prec m e) : KeyData)
  | .boolean b => .boolean b
  | .null => .null
  | .undef => .undef
  | .arr xs => .arr (normList prec xs)
  | .obj fs => .obj (sortFieldsByName (normFields prec fs))

def normList (prec : Nat) : KeyList → KeyList
  | .nil => .nil
  | .cons x xs => .cons (normalizeForHashing prec x) (normList prec xs)

def normFields (prec : Nat) : KeyFields → KeyFields
  | .nil => .nil
  | .cons k v fs => .cons k (normalizeForHashing prec v) (normFields prec fs)

end

/-- Model of `String.prototype.trim` (ASCII whitespace; the JS set coincides on the
strings considered here). -/
def jsTrim (s : String) : String :=
  String.mk (((s.data.dropWhile Char.isWhitespace).reverse.dropWhile Char.isWhitespace).reverse)

/-- Model of `generateCacheKey`: strings are trimmed and hashed verbatim; other values
are normalized, serialized with `JSON.stringify` and hashed.  `none` models
the `TypeError` that `hash.update(undefined)` would raise (top-level absent
value only; it cannot be reached through the public operations, which validate
the key first). -/
def generateCacheKey (prec : Nat) (data : KeyData) : Option String :=
  match data with
  | .str s => some (sha256Hex (strBytes (jsTrim s)))
  | d => (jsonStringify (normalizeForHashing prec d)).map (fun s => sha256Hex (strBytes s))

/-! ## Key size validation (`estimateSizeInBytes`, `validateCacheKeySize`) -/

inductive CacheError where
  | keyTooLarge
  | nonSerializable
deriving DecidableEq

instance {ε α : Type} [DecidableEq ε] [DecidableEq α] : DecidableEq (Except ε α) :=
  fun a b =>
    match a, b with
    | Except.error e1, Except.error e2 =>
      if h : e1 = e2 then isTrue (by rw [h]) else isFalse (fun hh => by cases hh; exact h rfl)
    | Except.error _, Except.ok _ => isFalse (fun hh => by cases hh)
    | Except.ok _, Except.error _ => isFalse (fun hh => by cases hh)
    | Except.ok v1, Except.ok v2 =>
      if h : v1 = v2 then isTrue (by rw [h]) else isFalse (fun hh => by cases hh; exact h rfl)

/-- Model of `estimateSizeInBytes`: `JSON.stringify(data).length`.  When `stringify`
yields JS `undefined` (top-level absent value; the circular-structure case is
not representable in the inductive model) the `.length` access throws and the
function raises the "circular references or non-serializable content" error. -/
def estimateSizeInBytes (data : KeyData) : Except CacheError Nat :=
  match jsonStringify data with
  | some s => Except.ok s.length
  | none => Except.error CacheError.nonSerializable

/-- Model of `validateCacheKeySize`: raises the descriptive size-limit error when the
estimated size exceeds `cacheKeyLimitBytes`. -/
def validateCacheKeySize (limitBytes : Nat) (data : KeyData) : Except CacheError Unit :=
  match estimateSizeInBytes data with
  | Except.error e => Except.error e
  | Except.ok n => if limitBytes < n then Except.error CacheError.keyTooLarge else Except.ok ()

/-! ## JS `Map` / `Set` as insertion-ordered association lists -/

variable {κ : Type} {β : Type} [DecidableEq κ]

/-- Model of `Map.get`: value at the first matching key. -/
def mapGet : List (κ × β) → κ → Option β
  | [], _ => none
  | p :: ps, k => if p.1 = k then some p.2 else mapGet ps k

/-- Model of `Map.set`: replace in place when present, append otherwise. -/
def mapSet : List (κ × β) → κ → β → List (κ × β)
  | [], k, v => [(k, v)]
  | p :: ps, k, v => if p.1 = k then (k, v) :: ps else p :: mapSet ps k v

/-- Model of `Map.delete`. -/
def mapDelete : List (κ × β) → κ → List (κ × β)
  | [], _ => []
  | p :: ps, k => if p.1 = k then mapDelete ps k else p :: mapDelete ps k

/-- Model of `Set.add`: no-op when present, append otherwise. -/
def setAdd (l : List κ) (k : κ) : List κ :=
  if k ∈ l then l else l ++ [k]

/-- Model of `Set.delete`. -/
def setDel : List κ → κ → List κ
  | [], _ => []
  | x :: xs, k => if x = k then setDel xs k else x :: setDel xs k

/-! ## Cache configuration, metadata, state -/

/-- Resolved numeric configuration of the indexed `CacheService` (the fields
the modelled operations consume; unit parsing is external). -/
structure CacheConfig where
  maxSizeBytes : Nat
  maxCacheAgeDays : Nat
  cacheKeyLimitBytes : Nat
  cutoffDateRecalcIntervalMs : Nat
  floatingPointPrecision : Nat
  findKeyBatchSize : Nat
  findAllKeysBatchSize : Nat
deriving DecidableEq

/-- Resolved `DEFAULT_CACHE_CONFIG`: 500 MB, 7 days, 100 KB key limit,
5-minute cutoff recalculation, precision 10, batch sizes 15 / 20. -/
def defaultConfig : CacheConfig :=
  ⟨500 * 1024 * 1024, 7, 100 * 1024, 5 * 60 * 1000, 10, 15, 20⟩

/-- Model of `CacheMetaData` (timestamps as epoch milliseconds). -/
structure CacheMetaData where
  key : String
  createdAt : Nat
  lastAccessed : Nat
  dataSize : Nat
  accessCount : Nat
deriving DecidableEq

/-- One cache file on disk: payload bytes and `stats.birthtime`. -/
structure FileInfo where
  data : List Nat
  birthtime : Nat
deriving DecidableEq

/-- The in-memory service state plus the cache directory contents.  File names
are identified by their `{cacheKey}` stem (the extension is a fixed suffix). -/
structure CacheState where
  metadata : List (String × CacheMetaData)
  files : List (String × FileInfo)
  contentHashCache : List (String × String)
  contentHashIndex : List (String × List String)
  sizeIndex : List (Nat × List String)
  dateIndex : List (Nat × List String)
  accessCountIndex : List (Nat × List String)
  cachedCutoffDate : Option Nat
deriving DecidableEq

def emptyState : CacheState := ⟨[], [], [], [], [], [], [], none⟩

def msPerDay : Nat := 24 * 60 * 60 * 1000

/-- Model of `getCutoffDate`, including the staleness check against the cached cutoff
(`now - cached > interval`) and the day-based subtraction `setDate(getDate() -
maxCacheAge)`, modelled as `now - maxCacheAgeDays * msPerDay` (truncated at 0).
Callers store the result back into `cachedCutoffDate`. -/
def getCutoffDate (cfg : CacheConfig) (now : Nat) (cached : Option Nat) : Nat :=
  match cached with
  | some c =>
    if cfg.cutoffDateRecalcIntervalMs < now - c then now - cfg.maxCacheAgeDays * msPerDay else c
  | none => now - cfg.maxCacheAgeDays * msPerDay

/-- Model of `new Date(createdAt).toISOString().split("T")[0]`: truncation to the
calendar day. -/
def dayOf (t : Nat) : Nat := t / msPerDay

/-! ## The index system -/

/-- Insert a key into the bucket `b`, creating the bucket when absent. -/
def bucketAdd (idx : List (κ × List String)) (b : κ) (k : String) : List (κ × List String) :=
  match mapGet idx b with
  | some set => mapSet idx b (setAdd set k)
  | none => mapSet idx b (setAdd [] k)

/-- Remove a key from the bucket `b`; a bucket that becomes empty is deleted
from the index. -/
def bucketDel (idx : List (κ × List String)) (b : κ) (k : String) : List (κ × List String) :=
  match mapGet idx b with
  | some set =>
    let set2 := setDel set k
    if set2.isEmpty then mapDelete idx b else mapSet idx b set2
  | none => idx

/-- Model of `addToIndexes`: size, date (creation day) and access-count buckets, plus
the content-hash bucket when a hash is provided.  (`metadata.accessCount || 0`
is the `Nat` field itself.) -/
def addToIndexes (s : CacheState) (cacheKey : String) (md : CacheMetaData)
    (contentHash : Option String) : CacheState :=
  let s := { s with sizeIndex := bucketAdd s.sizeIndex md.dataSize cacheKey }
  let s := { s with dateIndex := bucketAdd s.dateIndex (dayOf md.createdAt) cacheKey }
  let s := { s with accessCountIndex := bucketAdd s.accessCountIndex md.accessCount cacheKey }
  match contentHash with
  | some h => { s with contentHashIndex := bucketAdd s.contentHashIndex h cacheKey }
  | none => s

/-- Model of `removeFromIndexes`. -/
def removeFromIndexes (s : CacheState) (cacheKey : String) (md : CacheMetaData)
    (contentHash : Option String) : CacheState :=
  let s := { s with sizeIndex := bucketDel s.sizeIndex md.dataSize cacheKey }
  let s := { s with dateIndex := bucketDel s.dateIndex (dayOf md.createdAt) cacheKey }
  let s := { s with accessCountIndex := bucketDel s.accessCountIndex md.accessCount cacheKey }
  match contentHash with
  | some h => { s with contentHashIndex := bucketDel s.contentHashIndex h cacheKey }
  | none => s

/-- Model of `findKeysBySize`: a pure bucket read returning a copy. -/
def findKeysBySize (s : CacheState) (dataSize : Nat) : List String :=
  (mapGet s.sizeIndex dataSize).getD []

/-- Model of `findKeysByDate` (bucket key = creation day). -/
def findKeysByDate (s : CacheState) (day : Nat) : List String :=
  (mapGet s.dateIndex day).getD []

/-- Model of `findKeysByAccessCount`. -/
def findKeysByAccessCount (s : CacheState) (accessCount : Nat) : List String :=
  (mapGet s.accessCountIndex accessCount).getD []

/-! ## Entry removal, eviction, retention -/

/-- Model of `removeEntry`: unlink the file (missing file ignored), remove the entry
from the indexes (with its cached content hash, when present), then delete the
metadata entry and the content-hash cache entry. -/
def removeEntry (s : CacheState) (cacheKey : String) : CacheState :=
  let s1 := { s with files := mapDelete s.files cacheKey }
  let s2 :=
    match mapGet s1.metadata cacheKey with
    | some md => removeFromIndexes s1 cacheKey md (mapGet s1.contentHashCache cacheKey)
    | none => s1
  { s2 with
    metadata := mapDelete s2.metadata cacheKey,
    contentHashCache := mapDelete s2.contentHashCache cacheKey }

/-- Sum of `entry.dataSize` over an entry list (the loop in
`getCurrentCacheSize`; `dataSize || 0` is the `Nat` field itself). -/
def entriesSize : List (String × CacheMetaData) → Nat
  | [] => 0
  | p :: ps => p.2.dataSize + entriesSize ps

def getCurrentCacheSize (s : CacheState) : Nat := entriesSize s.metadata

/-- The `sort` comparator `(a, b) => a.lastAccessed - b.lastAccessed`:
ascending by last access; JS `Array.prototype.sort` is stable, as is
insertion sort. -/
def sortByLastAccessed (l : List (String × CacheMetaData)) : List (String × CacheMetaData) :=
  l.insertionSort (fun p q => p.2.lastAccessed ≤ q.2.lastAccessed)

/-- The eviction loop of `enforceMaxCacheSize`: walk the entries in ascending
`lastAccessed` order, removing entries while `currentSize - removedSize`
exceeds the limit. -/
def evictLoop (maxBytes currentSize : Nat) :
    List (String × CacheMetaData) → Nat → CacheState → CacheState
  | [], _, s => s
  | p :: rest, removedSize, s =>
    if currentSize - removedSize ≤ maxBytes then s
    else evictLoop maxBytes currentSize rest (removedSize + p.2.dataSize) (removeEntry s p.1)

/-- Model of `enforceMaxCacheSize`. -/
def enforceMaxCacheSize (cfg : CacheConfig) (s : CacheState) : CacheState :=
  evictLoop cfg.maxSizeBytes (getCurrentCacheSize s) (sortByLastAccessed s.metadata) 0 s

/-- Model of `cleanupOldEntries`: remove every entry whose `createdAt` precedes the
cutoff (the ISO-string comparison `entry.createdAt < cutoffIso` coincides with
the numeric comparison). -/
def cleanupOldEntries (cfg : CacheConfig) (now : Nat) (s : CacheState) : CacheState :=
  let cutoff := getCutoffDate cfg now s.cachedCutoffDate
  let s1 := { s with cachedCutoffDate := some cutoff }
  s1.metadata.foldl
    (fun st p => if p.2.createdAt < cutoff then removeEntry st p.1 else st) s1

/-! ## Consistency validation (`validateAndCleanMetadata`) -/

/-- One iteration of the validation loop over an entry.  `none` marks the
entry as orphaned (its file is missing).  Otherwise the entry's `dataSize` is
corrected to the file's size when they disagree, and — when the file's
creation time is strictly later than `createdAt` (`new Date(stats.birthtime) >
new Date(metadata.createdAt)`) — both timestamps are set to the file creation
time.  The returned count is the number of corrections applied. -/
def repairEntry (files : List (String × FileInfo)) (p : String × CacheMetaData) :
    Option ((String × CacheMetaData) × Nat) :=
  match mapGet files p.1 with
  | none => none
  | some fi =>
    let r1 :=
      if p.2.dataSize = fi.data.length then (p.2, 0)
      else ({ p.2 with dataSize := fi.data.length }, 1)
    let r2 :=
      if p.2.createdAt < fi.birthtime then
        ({ r1.1 with createdAt := fi.birthtime, lastAccessed := fi.birthtime }, r1.2 + 1)
      else r1
    some ((p.1, r2.1), r2.2)

/-- Model of `validateAndCleanMetadata`: returns the new state, the number of orphaned
entries removed, and the number of corrected entries.  (Orphan removal deletes
from the metadata map only — indexes are untouched, as in the source.) -/
def validateAndCleanMetadata (s : CacheState) : CacheState × Nat × Nat :=
  if s.metadata.isEmpty then (s, 0, 0)
  else
    let processed := s.metadata.map (repairEntry s.files)
    let newMeta := processed.filterMap (fun q => q.map Prod.fst)
    let orphaned := (processed.filter (fun q => q = none)).length
    let corrected := (processed.filterMap (fun q => q.map Prod.snd)).foldl (fun t c => t + c) 0
    ({ s with metadata := newMeta }, orphaned, corrected)

/-! ## The public key-addressed operations -/

/-- The validation-plus-hashing prefix shared by `exists` / `get` / `set` /
`deleteKey`: `validateCacheKeySize(keyData)` then `generateCacheKey(keyData)`.
The `none` result of `generateCacheKey` cannot occur once validation has
succeeded. -/
def computeCacheKey (cfg : CacheConfig) (data : KeyData) : Except CacheError String :=
  match validateCacheKeySize cfg.cacheKeyLimitBytes data with
  | Except.error e => Except.error e
  | Except.ok _ =>
    match generateCacheKey cfg.floatingPointPrecision data with
    | some k => Except.ok k
    | none => Except.error CacheError.nonSerializable

/-- Model of `exists` (named `cacheExists` here; `exists` is reserved).  The catch-all
in the source converts any raised validation error into the return value
`false`; the expiry check removes the entry, a missing file deletes the
metadata entry only (no index cleanup on this path). -/
def cacheExists (cfg : CacheConfig) (now : Nat) (s : CacheState) (keyData : KeyData) :
    CacheState × Bool :=
  match computeCacheKey cfg keyData with
  | Except.error _ => (s, false)
  | Except.ok cacheKey =>
    match mapGet s.metadata cacheKey with
    | none => (s, false)
    | some md =>
      let cutoff := getCutoffDate cfg now s.cachedCutoffDate
      let s1 := { s with cachedCutoffDate := some cutoff }
      if md.createdAt < cutoff then (removeEntry s1 cacheKey, false)
      else
        match mapGet s1.files cacheKey with
        | some _ => (s1, true)
        | none => ({ s1 with metadata := mapDelete s1.metadata cacheKey }, false)

/-- Model of `get`: validation errors are converted to `null` by the catch-all; on a
hit the access metadata (`lastAccessed`, `accessCount`) is updated in the
metadata map; a missing file deletes the metadata entry only. -/
def get (cfg : CacheConfig) (now : Nat) (s : CacheState) (keyData : KeyData) :
    CacheState × Option (List Nat) :=
  match computeCacheKey cfg keyData with
  | Except.error _ => (s, none)
  | Except.ok cacheKey =>
    match mapGet s.metadata cacheKey with
    | none => (s, none)
    | some md =>
      let cutoff := getCutoffDate cfg now s.cachedCutoffDate
      let s1 := { s with cachedCutoffDate := some cutoff }
      if md.createdAt < cutoff then (removeEntry s1 cacheKey, none)
      else
        match mapGet s1.files cacheKey with
        | some fi =>
          let md2 := { md with lastAccessed := now, accessCount := md.accessCount + 1 }
          ({ s1 with metadata := mapSet s1.metadata cacheKey md2 }, some fi.data)
        | none => ({ s1 with metadata := mapDelete s1.metadata cacheKey }, none)

/-- Write the payload file (`fs.writeFile`): an overwrite keeps the original
creation time, a fresh file is created `now`. -/
def writeFile (now : Nat) (files : List (String × FileInfo)) (k : String) (data : List Nat) :
    List (String × FileInfo) :=
  match mapGet files k with
  | some fi => mapSet files k { fi with data := data }
  | none => mapSet files k ⟨data, now⟩

/-- The body of `set` up to (and excluding) the final `enforceMaxCacheSize`
call: validate, hash the key and the content, write the file, remove a
replaced entry from the indexes, store the new metadata and content hash, add
to all indexes.  `none` models the caught validation error. -/
def setPrepared (cfg : CacheConfig) (now : Nat) (s : CacheState) (keyData : KeyData)
    (data : List Nat) : Option CacheState :=
  match computeCacheKey cfg keyData with
  | Except.error _ => none
  | Except.ok cacheKey =>
    let contentHash := sha256Hex data
    let s1 := { s with files := writeFile now s.files cacheKey data }
    let md : CacheMetaData := ⟨cacheKey, now, now, data.length, 0⟩
    let s2 :=
      match mapGet s1.metadata cacheKey with
      | some oldMd => removeFromIndexes s1 cacheKey oldMd (mapGet s1.contentHashCache cacheKey)
      | none => s1
    let s3 := { s2 with
      metadata := mapSet s2.metadata cacheKey md,
      contentHashCache := mapSet s2.contentHashCache cacheKey contentHash }
    some (addToIndexes s3 cacheKey md (some contentHash))

/-- Model of `set`: the catch-all converts a validation error into the return value
`false`; on success the size limit is enforced synchronously before
returning `true`. -/
def set (cfg : CacheConfig) (now : Nat) (s : CacheState) (keyData : KeyData)
    (data : List Nat) : CacheState × Bool :=
  match setPrepared cfg now s keyData data with
  | none => (s, false)
  | some s1 => (enforceMaxCacheSize cfg s1, true)

/-- Model of `deleteKey`: with a metadata entry, remove it (file, metadata, indexes)
and return `true`; without one, delete an orphaned `{hash}.{ext}` file when it
exists (`true`), otherwise return `false`.  Validation errors are converted to
`false` by the catch-all. -/
def deleteKey (cfg : CacheConfig) (s : CacheState) (keyData : KeyData) : CacheState × Bool :=
  match computeCacheKey cfg keyData with
  | Except.error _ => (s, false)
  | Except.ok cacheKey =>
    match mapGet s.metadata cacheKey with
    | none =>
      match mapGet s.files cacheKey with
      | some _ => ({ s with files := mapDelete s.files cacheKey }, true)
      | none => (s, false)
    | some _ => (removeEntry s cacheKey, true)

/-! ## Content search (`getContentHash`, `findKeyByValue`, `findAllKeysByValue`) -/

/-- Model of `getContentHash`: cached hash if available; otherwise read the file,
reject it when its size disagrees with the metadata, else hash the content
and remember it in the content-hash cache. -/
def getContentHash (s : CacheState) (cacheKey : String) (md : CacheMetaData) :
    CacheState × Option String :=
  match mapGet s.contentHashCache cacheKey with
  | some h => (s, some h)
  | none =>
    match mapGet s.files cacheKey with
    | none => (s, none)
    | some fi =>
      if fi.data.length ≠ md.dataSize then (s, none)
      else
        let h := sha256Hex fi.data
        ({ s with contentHashCache := mapSet s.contentHashCache cacheKey h }, some h)

/-- Process one scan candidate: compute its digest via `getContentHash`; when
the digest equals the searched digest, insert the key into the content-hash
index and record the match.  (The per-batch `Promise.all` effects are applied
in candidate order.) -/
def processCandidate (searchHash : String) (acc : CacheState × List String)
    (p : String × CacheMetaData) : CacheState × List String :=
  let r := getContentHash acc.1 p.1 p.2
  match r.2 with
  | some h =>
    if h = searchHash then
      ({ r.1 with contentHashIndex := bucketAdd r.1.contentHashIndex h p.1 }, acc.2 ++ [p.1])
    else (r.1, acc.2)
  | none => (r.1, acc.2)

/-- The batched scan of `findKeyByValue`: each batch is fully processed; the
first match of the earliest batch containing one is returned. -/
def scanBatches (searchHash : String) :
    List (List (String × CacheMetaData)) → CacheState → CacheState × Option String
  | [], s => (s, none)
  | b :: rest, s =>
    let r := b.foldl (processCandidate searchHash) (s, [])
    match r.2.head? with
    | some k => (r.1, some k)
    | none => scanBatches searchHash rest r.1

/-- The batched scan of `findAllKeysByValue`: all batches are processed and
all matches collected. -/
def scanAllBatches (searchHash : String) :
    List (List (String × CacheMetaData)) → CacheState → List String → CacheState × List String
  | [], s, acc => (s, acc)
  | b :: rest, s, acc =>
    let r := b.foldl (processCandidate searchHash) (s, [])
    scanAllBatches searchHash rest r.1 (acc ++ r.2)

/-- Model of `findKeyByValue`: an O(1) content-hash index hit returns the first key of
the bucket; otherwise fall back to the size-filtered batched scan of
non-expired candidates (with the `dataSize ≤ maxSizeBytes` sanity filter;
`dataSize < 0` cannot occur for `Nat`). -/
def findKeyByValue (cfg : CacheConfig) (now : Nat) (s : CacheState) (v : List Nat) :
    CacheState × Option String :=
  let searchHash := sha256Hex v
  let fallback := fun (s : CacheState) =>
    let cutoff := getCutoffDate cfg now s.cachedCutoffDate
    let s1 := { s with cachedCutoffDate := some cutoff }
    let candidates := s1.metadata.filter (fun p =>
      decide (¬ p.2.createdAt < cutoff) && decide (p.2.dataSize ≤ cfg.maxSizeBytes) &&
      decide (p.2.dataSize = v.length))
    if candidates.isEmpty then (s1, none)
    else scanBatches searchHash (chunkList (min cfg.findKeyBatchSize candidates.length) candidates) s1
  match mapGet s.contentHashIndex searchHash with
  | some bucket => if bucket.isEmpty then fallback s else (s, bucket.head?)
  | none => fallback s

/-- Model of `findAllKeysByValue`: an index hit returns the whole bucket; otherwise all
size-matching non-expired candidates are scanned (this filter has no
`maxSizeBytes` sanity check) and every match is returned. -/
def findAllKeysByValue (cfg : CacheConfig) (now : Nat) (s : CacheState) (v : List Nat) :
    CacheState × List String :=
  let searchHash := sha256Hex v
  let fallback := fun (s : CacheState) =>
    let cutoff := getCutoffDate cfg now s.cachedCutoffDate
    let s1 := { s with cachedCutoffDate := some cutoff }
    let candidates := s1.metadata.filter (fun p =>
      decide (¬ p.2.createdAt < cutoff) && decide (p.2.dataSize = v.length))
    if candidates.isEmpty then (s1, [])
    else
      scanAllBatches searchHash
        (chunkList (min cfg.findAllKeysBatchSize candidates.length) candidates) s1 []
  match mapGet s.contentHashIndex searchHash with
  | some bucket => if bucket.isEmpty then fallback s else (s, bucket)
  | none => fallback s

/-! ## Association-list lemmas -/

theorem mapGet_mapSet_self (l : List (κ × β)) (k : κ) (v : β) :
    mapGet (mapSet l k v) k = some v := by
  induction l with
  | nil => simp [mapSet, mapGet]
  | cons p ps ih =>
    rw [mapSet]
    by_cases h : p.1 = k
    · rw [if_pos h, mapGet, if_pos rfl]
    · rw [if_neg h, mapGet, if_neg h, ih]

theorem mapGet_mapSet_ne (l : List (κ × β)) (k k2 : κ) (v : β) (h : k2 ≠ k) :
    mapGet (mapSet l k v) k2 = mapGet l k2 := by
  induction l with
  | nil => simp [mapSet, mapGet, Ne.symm h]
  | cons p ps ih =>
    rw [mapSet]
    by_cases hp : p.1 = k
    · rw [if_pos hp, mapGet, if_neg (Ne.symm h), mapGet, hp, if_neg (Ne.symm h)]
    · rw [if_neg hp, mapGet, mapGet, ih]

theorem mapGet_mapDelete_self (l : List (κ × β)) (k : κ) :
    mapGet (mapDelete l k) k = none := by
  induction l with
  | nil => simp [mapDelete, mapGet]
  | cons p ps ih =>
    rw [mapDelete]
    by_cases h : p.1 = k
    · rw [if_pos h]
      exact ih
    · rw [if_neg h, mapGet, if_neg h]
      exact ih

theorem mapGet_mapDelete_ne (l : List (κ × β)) (k k2 : κ) (h : k2 ≠ k) :
    mapGet (mapDelete l k) k2 = mapGet l k2 := by
  induction l with
  | nil => rw [mapDelete]
  | cons p ps ih =>
    rw [mapDelete]
    by_cases hp : p.1 = k
    · rw [if_pos hp, mapGet, hp, if_neg (Ne.symm h), ih]
    · rw [if_neg hp, mapGet, mapGet, ih]

theorem mapGet_some_mem {l : List (κ × β)} {k : κ} {v : β} (h : mapGet l k = some v) :
    (k, v) ∈ l := by
  induction l with
  | nil => simp [mapGet] at h
  | cons p ps ih =>
    by_cases hp : p.1 = k
    · rw [mapGet, if_pos hp] at h
      have hv : p.2 = v := Option.some.inj h
      have hpkv : p = (k, v) := by
        cases p
        simp_all
      rw [← hpkv]
      exact List.mem_cons_self _ _
    · rw [mapGet, if_neg hp] at h
      exact List.mem_cons_of_mem _ (ih h)

theorem mapGet_isSome_of_ne_nil {l : List (κ × β)} {k : κ} {v : β}
    (h : mapGet l k = some v) : l ≠ [] := by
  intro hl
  subst hl
  simp [mapGet] at h

theorem setDel_not_mem (l : List κ) (k : κ) : k ∉ setDel l k := by
  induction l with
  | nil => simp [setDel]
  | cons x xs ih =>
    by_cases h : x = k
    · simp [setDel, h, ih]
    · simp [setDel, h, ih]
      intro hh
      exact absurd hh.symm h

theorem mem_setDel {l : List κ} {k x : κ} (h : x ∈ setDel l k) : x ∈ l := by
  induction l with
  | nil => simp [setDel] at h
  | cons y ys ih =>
    by_cases hy : y = k
    · rw [setDel, if_pos hy] at h
      exact List.mem_cons_of_mem _ (ih h)
    · rw [setDel, if_neg hy] at h
      rcases List.mem_cons.mp h with h1 | h2
      · exact h1 ▸ List.mem_cons_self _ _
      · exact List.mem_cons_of_mem _ (ih h2)

theorem mem_setAdd {l : List κ} {k x : κ} (h : x ∈ setAdd l k) : x ∈ l ∨ x = k := by
  unfold setAdd at h
  by_cases hk : k ∈ l
  · rw [if_pos hk] at h
    exact Or.inl h
  · rw [if_neg hk] at h
    rcases List.mem_append.mp h with h1 | h2
    · exact Or.inl h1
    · exact Or.inr (List.mem_singleton.mp h2)

/-- Membership of a key in a bucket of an index. -/
def bucketMem (idx : List (κ × List String)) (b : κ) (k : String) : Prop :=
  k ∈ (mapGet idx b).getD []

instance (idx : List (κ × List String)) (b : κ) (k : String) : Decidable (bucketMem idx b k) :=
  inferInstanceAs (Decidable (k ∈ (mapGet idx b).getD []))

theorem not_bucketMem_bucketDel_self (idx : List (κ × List String)) (b : κ) (k : String) :
    ¬ bucketMem (bucketDel idx b k) b k := by
  unfold bucketMem bucketDel
  cases h : mapGet idx b with
  | none => simp [h]
  | some set =>
    by_cases he : (setDel set k).isEmpty
    · simp [he, mapGet_mapDelete_self]
    · simp [he, mapGet_mapSet_self]
      exact setDel_not_mem set k

theorem bucketMem_bucketAdd {idx : List (κ × List String)} {b b2 : κ} {k k2 : String}
    (h : bucketMem (bucketAdd idx b k) b2 k2) :
    bucketMem idx b2 k2 ∨ (b2 = b ∧ k2 = k) := by
  simp only [bucketMem, bucketAdd] at h ⊢
  by_cases hb : b2 = b
  · subst hb
    cases hg : mapGet idx b2 with
    | none =>
      rw [hg, mapGet_mapSet_self] at h
      simp only [Option.getD_some] at h
      rcases mem_setAdd h with h1 | h2
      · simp at h1
      · exact Or.inr ⟨rfl, h2⟩
    | some set =>
      rw [hg, mapGet_mapSet_self] at h
      simp only [Option.getD_some] at h
      rcases mem_setAdd h with h1 | h2
      · exact Or.inl (by simpa using h1)
      · exact Or.inr ⟨rfl, h2⟩
  · cases hg : mapGet idx b with
    | none =>
      rw [hg, mapGet_mapSet_ne _ _ _ _ hb] at h
      exact Or.inl h
    | some set =>
      rw [hg, mapGet_mapSet_ne _ _ _ _ hb] at h
      exact Or.inl h

/-! ## Projection lemmas for the index mutators and `removeEntry` -/

theorem removeFromIndexes_metadata (s : CacheState) (k : String) (md : CacheMetaData)
    (ch : Option String) : (removeFromIndexes s k md ch).metadata = s.metadata := by
  cases ch <;> rfl

theorem removeFromIndexes_files (s : CacheState) (k : String) (md : CacheMetaData)
    (ch : Option String) : (removeFromIndexes s k md ch).files = s.files := by
  cases ch <;> rfl

theorem removeFromIndexes_contentHashCache (s : CacheState) (k : String) (md : CacheMetaData)
    (ch : Option String) : (removeFromIndexes s k md ch).contentHashCache = s.contentHashCache := by
  cases ch <;> rfl

theorem removeFromIndexes_accessCountIndex (s : CacheState) (k : String) (md : CacheMetaData)
    (ch : Option String) :
    (removeFromIndexes s k md ch).accessCountIndex = bucketDel s.accessCountIndex md.accessCount k := by
  cases ch <;> rfl

theorem addToIndexes_metadata (s : CacheState) (k : String) (md : CacheMetaData)
    (ch : Option String) : (addToIndexes s k md ch).metadata = s.metadata := by
  cases ch <;> rfl

theorem addToIndexes_files (s : CacheState) (k : String) (md : CacheMetaData)
    (ch : Option String) : (addToIndexes s k md ch).files = s.files := by
  cases ch <;> rfl

theorem addToIndexes_contentHashCache (s : CacheState) (k : String) (md : CacheMetaData)
    (ch : Option String) : (addToIndexes s k md ch).contentHashCache = s.contentHashCache := by
  cases ch <;> rfl

theorem removeEntry_metadata (s : CacheState) (k : String) :
    (removeEntry s k).metadata = mapDelete s.metadata k := by
  unfold removeEntry
  cases h : mapGet s.metadata k with
  | none => simp [h]
  | some md => simp [h, removeFromIndexes_metadata]

theorem removeEntry_files (s : CacheState) (k : String) :
    (removeEntry s k).files = mapDelete s.files k := by
  unfold removeEntry
  cases h : mapGet s.metadata k with
  | none => simp [h]
  | some md => simp [h, removeFromIndexes_files]

theorem removeEntry_contentHashCache (s : CacheState) (k : String) :
    (removeEntry s k).contentHashCache = mapDelete s.contentHashCache k := by
  unfold removeEntry
  cases h : mapGet s.metadata k with
  | none => simp [h]
  | some md => simp [h, removeFromIndexes_contentHashCache]


theorem removeFromIndexes_sizeIndex (s : CacheState) (k : String) (md : CacheMetaData)
    (ch : Option String) :
    (removeFromIndexes s k md ch).sizeIndex = bucketDel s.sizeIndex md.dataSize k := by
  cases ch <;> rfl

theorem removeFromIndexes_dateIndex (s : CacheState) (k : String) (md : CacheMetaData)
    (ch : Option String) :
    (removeFromIndexes s k md ch).dateIndex = bucketDel s.dateIndex (dayOf md.createdAt) k := by
  cases ch <;> rfl

theorem removeFromIndexes_contentHashIndex_some (s : CacheState) (k : String)
    (md : CacheMetaData) (h : String) :
    (removeFromIndexes s k md (some h)).contentHashIndex = bucketDel s.contentHashIndex h k := rfl

theorem removeEntry_sizeIndex_of_some (s : CacheState) (k : String) (md : CacheMetaData)
    (hmd : mapGet s.metadata k = some md) :
    (removeEntry s k).sizeIndex = bucketDel s.sizeIndex md.dataSize k := by
  unfold removeEntry
  simp [hmd, removeFromIndexes_sizeIndex]

theorem removeEntry_dateIndex_of_some (s : CacheState) (k : String) (md : CacheMetaData)
    (hmd : mapGet s.metadata k = some md) :
    (removeEntry s k).dateIndex = bucketDel s.dateIndex (dayOf md.createdAt) k := by
  unfold removeEntry
  simp [hmd, removeFromIndexes_dateIndex]

theorem removeEntry_accessCountIndex_of_some (s : CacheState) (k : String) (md : CacheMetaData)
    (hmd : mapGet s.metadata k = some md) :
    (removeEntry s k).accessCountIndex = bucketDel s.accessCountIndex md.accessCount k := by
  unfold removeEntry
  simp [hmd, removeFromIndexes_accessCountIndex]

theorem removeEntry_contentHashIndex_of_some (s : CacheState) (k : String) (md : CacheMetaData)
    (h : String) (hmd : mapGet s.metadata k = some md)
    (hch : mapGet s.contentHashCache k = some h) :
    (removeEntry s k).contentHashIndex = bucketDel s.contentHashIndex h k := by
  unfold removeEntry
  simp [hmd, hch, removeFromIndexes_contentHashIndex_some]

/-! ## Claim C2 — error propagation of `set` / `get` / `exists` -/

/-- A configuration with a 4-byte key-size limit (for the C2 counterexample). -/
def cfgKeyLimit4 : CacheConfig := { defaultConfig with cacheKeyLimitBytes := 4 }

/-- C2, counterexample.  The key `"abcdef"` serializes to 8 bytes, above the
4-byte limit, and `validateCacheKeySize` raises the size error inside the
operations — but `set`, `get` and `exists` catch it and return the normal
values `false` / `null` / `false` with the state unchanged, instead of
propagating the error to their caller as the claim asserts. -/
theorem c2_counterexample :
    validateCacheKeySize cfgKeyLimit4.cacheKeyLimitBytes (KeyData.str "abcdef") =
      Except.error CacheError.keyTooLarge ∧
    set cfgKeyLimit4 0 emptyState (KeyData.str "abcdef") [104] = (emptyState, false) ∧
    get cfgKeyLimit4 0 emptyState (KeyData.str "abcdef") = (emptyState, none) ∧
    cacheExists cfgKeyLimit4 0 emptyState (KeyData.str "abcdef") = (emptyState, false) := by
  decide

/-- C2, amended: any error raised by key validation (size limit exceeded, or
the circular/non-serializable error) is caught by the catch-all inside `set`,
`get` and `exists` and converted into the ordinary return values `false`,
`null` and `false`, leaving the state unchanged. -/
theorem c2_validation_error_is_swallowed (cfg : CacheConfig) (now : Nat) (s : CacheState)
    (kd : KeyData) (data : List Nat) (e : CacheError)
    (hv : validateCacheKeySize cfg.cacheKeyLimitBytes kd = Except.error e) :
    set cfg now s kd data = (s, false) ∧ get cfg now s kd = (s, none) ∧
      cacheExists cfg now s kd = (s, false) := by
  have hck : computeCacheKey cfg kd = Except.error e := by
    unfold computeCacheKey
    rw [hv]
  refine ⟨?_, ?_, ?_⟩
  · unfold set setPrepared
    rw [hck]
  · unfold get
    rw [hck]
  · unfold cacheExists
    rw [hck]

/-- C2 witness: the amended theorem applied to the oversized key. -/
theorem c2_validation_error_is_swallowed_witness :
    set cfgKeyLimit4 3 emptyState (KeyData.str "abcdef") [104] = (emptyState, false) ∧
    get cfgKeyLimit4 3 emptyState (KeyData.str "abcdef") = (emptyState, none) ∧
    cacheExists cfgKeyLimit4 3 emptyState (KeyData.str "abcdef") = (emptyState, false) :=
  c2_validation_error_is_swallowed cfgKeyLimit4 3 emptyState (KeyData.str "abcdef") [104]
    CacheError.keyTooLarge (by decide)

/-! ## Claim C9 — `maxAge = 0` expiry through `cleanupOldEntries` and `exists` -/

/-- A configuration with `maxAge = 0` (for C9). -/
def cfgAge0 : CacheConfig := { defaultConfig with maxCacheAgeDays := 0 }

def c9afterSet : CacheState := (set cfgAge0 1000 emptyState (KeyData.str "a") [104]).1

def c9afterCleanup : CacheState := cleanupOldEntries cfgAge0 1000 c9afterSet

/-- C9, counterexample.  With `maxAge = 0`, an entry `set` at time 1000 and
checked via `exists` right after `cleanupOldEntries` ran (at the same
millisecond, so the cutoff equals the creation time and `createdAt < cutoff`
is false) is NOT treated as expired: `exists` returns `true`, contradicting
the claim that it returns false regardless of how soon the cleanup and check
occur. -/
theorem c9_counterexample :
    (set cfgAge0 1000 emptyState (KeyData.str "a") [104]).2 = true ∧
    (cacheExists cfgAge0 1000 c9afterCleanup (KeyData.str "a")).2 = true := by
  decide

/-- C9, amended: with `maxAge = 0`, `exists` reports an entry expired (removes
it and returns `false`) exactly when the cutoff in effect is strictly later
than the entry's creation time; in particular whenever the cutoff is
recomputed (no cached cutoff) at any time strictly after the `set`.  At the
same millisecond, or while a cutoff cached before the `set` is still fresh,
`exists` still returns `true`. -/
theorem c9_expired_when_cutoff_later (cfg : CacheConfig) (now : Nat) (s : CacheState)
    (kd : KeyData) (k : String) (md : CacheMetaData)
    (hage : cfg.maxCacheAgeDays = 0)
    (hck : computeCacheKey cfg kd = Except.ok k)
    (hmd : mapGet s.metadata k = some md)
    (hcc : s.cachedCutoffDate = none)
    (hlt : md.createdAt < now) :
    (cacheExists cfg now s kd).2 = false ∧
    mapGet (cacheExists cfg now s kd).1.metadata k = none := by
  have hcut : getCutoffDate cfg now s.cachedCutoffDate = now := by
    rw [hcc]
    unfold getCutoffDate
    rw [hage]
    simp
  unfold cacheExists
  simp only [hck, hmd, hcut, hlt, if_true]
  constructor
  · simp
  · simp [removeEntry_metadata, mapGet_mapDelete_self]

/-- C9 witness: the amended theorem applied right after the counterexample
scenario, one millisecond later, where the recomputed cutoff does expire the
entry. -/
theorem c9_expired_when_cutoff_later_witness :
    (cacheExists cfgAge0 1001 { c9afterCleanup with cachedCutoffDate := none }
        (KeyData.str "a")).2 = false ∧
    mapGet (cacheExists cfgAge0 1001 { c9afterCleanup with cachedCutoffDate := none }
        (KeyData.str "a")).1.metadata (sha256Hex (strBytes "a")) = none :=
  c9_expired_when_cutoff_later cfgAge0 1001
    { c9afterCleanup with cachedCutoffDate := none } (KeyData.str "a")
    (sha256Hex (strBytes "a")) ⟨sha256Hex (strBytes "a"), 1000, 1000, 1, 0⟩
    (by decide) (by decide) (by decide) (by decide) (by decide)


/-! ## Claim C5 — validator timestamp repair -/

/-- The entry produced by the validation loop for an entry whose file exists:
`dataSize` corrected to the file size, and both timestamps set to the file
creation time exactly when the file was created strictly AFTER `createdAt`. -/
def repairedOf (md : CacheMetaData) (fi : FileInfo) : CacheMetaData :=
  let base := if md.dataSize = fi.data.length then md else { md with dataSize := fi.data.length }
  if md.createdAt < fi.birthtime then
    { base with createdAt := fi.birthtime, lastAccessed := fi.birthtime }
  else base

theorem repairEntry_eq_some (files : List (String × FileInfo)) (k : String)
    (md : CacheMetaData) (fi : FileInfo) (hfi : mapGet files k = some fi) :
    repairEntry files (k, md) =
      some ((k, repairedOf md fi),
        (if md.dataSize = fi.data.length then 0 else 1) +
          (if md.createdAt < fi.birthtime then 1 else 0)) := by
  unfold repairEntry repairedOf
  rw [hfi]
  by_cases h1 : md.dataSize = fi.data.length <;>
    by_cases h2 : md.createdAt < fi.birthtime <;> simp [h1, h2]

theorem repairEntry_key (files : List (String × FileInfo)) (p : String × CacheMetaData)
    (q : (String × CacheMetaData) × Nat) (h : repairEntry files p = some q) :
    q.1.1 = p.1 := by
  unfold repairEntry at h
  cases hg : mapGet files p.1 with
  | none =>
    rw [hg] at h
    cases h
  | some fi =>
    rw [hg] at h
    have := Option.some.inj h
    rw [← this]

theorem mapGet_filterMap_repair (files : List (String × FileInfo))
    (l : List (String × CacheMetaData)) (k : String) (md : CacheMetaData) (fi : FileInfo)
    (h : mapGet l k = some md) (hfi : mapGet files k = some fi) :
    mapGet (l.filterMap (fun p => (repairEntry files p).map Prod.fst)) k =
      some (repairedOf md fi) := by
  induction l with
  | nil => simp [mapGet] at h
  | cons p ps ih =>
    by_cases hp : p.1 = k
    · rw [mapGet, if_pos hp] at h
      have hpe : p = (k, md) := by
        cases p
        simp_all
      rw [hpe, List.filterMap_cons, repairEntry_eq_some files k md fi hfi]
      simp [mapGet]
    · rw [mapGet, if_neg hp] at h
      rw [List.filterMap_cons]
      cases hr : repairEntry files p with
      | none =>
        simp only [hr, Option.map_none']
        exact ih h
      | some q =>
        have hq : q.1.1 = p.1 := repairEntry_key files p q hr
        simp only [hr, Option.map_some']
        rw [mapGet, if_neg (by rw [hq]; exact hp)]
        exact ih h

theorem foldl_add_from (cs : List Nat) (a : Nat) :
    cs.foldl (fun t c => t + c) a = a + cs.sum := by
  induction cs generalizing a with
  | nil => simp
  | cons c cs ih =>
    rw [List.foldl_cons, ih, List.sum_cons]
    omega

def c5md : CacheMetaData := ⟨"k", 200, 200, 1, 0⟩

def c5state : CacheState :=
  { emptyState with metadata := [("k", c5md)], files := [("k", ⟨[7], 100⟩)] }

/-- C5, counterexample.  The entry was created at time 200 and its file's
creation time 100 PRECEDES it — exactly the situation in which the claim says
validate-and-clean must rewrite `createdAt`/`lastAccessed` to 100 and count a
repair.  The code compares in the other direction
(`new Date(stats.birthtime) > new Date(metadata.createdAt)`), so the entry is
left completely unchanged and nothing is counted. -/
theorem c5_counterexample :
    (100 < c5md.createdAt) ∧
    (validateAndCleanMetadata c5state).1.metadata = [("k", c5md)] ∧
    (validateAndCleanMetadata c5state).2 = (0, 0) := by
  decide

/-- C5, amended: for an entry whose file exists, validate-and-clean corrects
`dataSize` to the file's size and updates `createdAt` and `lastAccessed` to
the file's creation time exactly when that creation time is strictly LATER
than `createdAt` (counting it as a repair); when the file's creation time does
not follow `createdAt`, the timestamps are unchanged. -/
theorem c5_timestamp_repair (s : CacheState) (k : String) (md : CacheMetaData) (fi : FileInfo)
    (hmd : mapGet s.metadata k = some md) (hfi : mapGet s.files k = some fi) :
    mapGet (validateAndCleanMetadata s).1.metadata k = some (repairedOf md fi) ∧
    ((repairedOf md fi).createdAt, (repairedOf md fi).lastAccessed) =
      (if md.createdAt < fi.birthtime then (fi.birthtime, fi.birthtime)
       else (md.createdAt, md.lastAccessed)) ∧
    (md.createdAt < fi.birthtime → 1 ≤ (validateAndCleanMetadata s).2.2) := by
  have hne : s.metadata ≠ [] := mapGet_isSome_of_ne_nil hmd
  have hemp : s.metadata.isEmpty = false := by
    cases hl : s.metadata with
    | nil => exact absurd hl hne
    | cons a l => rfl
  refine ⟨?_, ?_, ?_⟩
  · unfold validateAndCleanMetadata
    rw [hemp]
    simpa using mapGet_filterMap_repair s.files s.metadata k md fi hmd hfi
  · unfold repairedOf
    by_cases h1 : md.dataSize = fi.data.length <;>
      by_cases h2 : md.createdAt < fi.birthtime <;> simp [h1, h2]
  · intro h2
    unfold validateAndCleanMetadata
    rw [hemp]
    simp only [Bool.false_eq_true, if_false]
    set cnt := (if md.dataSize = fi.data.length then 0 else 1) +
      (if md.createdAt < fi.birthtime then 1 else 0) with hcnt
    have hmem : cnt ∈ (s.metadata.map (repairEntry s.files)).filterMap
        (fun q => q.map Prod.snd) := by
      refine List.mem_filterMap.mpr ⟨repairEntry s.files (k, md), ?_, ?_⟩
      · exact List.mem_map_of_mem _ (mapGet_some_mem hmd)
      · rw [repairEntry_eq_some s.files k md fi hfi]
        rfl
    have hsum := List.single_le_sum (l := (s.metadata.map (repairEntry s.files)).filterMap
        (fun q => q.map Prod.snd)) (fun x _ => Nat.zero_le x) cnt hmem
    have hc1 : 1 ≤ cnt := by
      rw [hcnt]
      simp [h2]
    calc (1 : Nat) ≤ cnt := hc1
      _ ≤ ((s.metadata.map (repairEntry s.files)).filterMap
            (fun q => q.map Prod.snd)).sum := hsum
      _ = 0 + ((s.metadata.map (repairEntry s.files)).filterMap
            (fun q => q.map Prod.snd)).sum := (Nat.zero_add _).symm
      _ = _ := (foldl_add_from _ 0).symm


/-- C5 witness: a file created at time 300, after the entry's `createdAt` of
200 — the case the code does repair. -/
theorem c5_timestamp_repair_witness :
    mapGet (validateAndCleanMetadata
        { emptyState with metadata := [("k", c5md)], files := [("k", ⟨[7], 300⟩)] }).1.metadata "k" =
      some (repairedOf c5md ⟨[7], 300⟩) ∧
    ((repairedOf c5md ⟨[7], 300⟩).createdAt, (repairedOf c5md ⟨[7], 300⟩).lastAccessed) =
      (if c5md.createdAt < (300 : Nat) then ((300 : Nat), (300 : Nat))
       else (c5md.createdAt, c5md.lastAccessed)) ∧
    (c5md.createdAt < (300 : Nat) → 1 ≤ (validateAndCleanMetadata
        { emptyState with metadata := [("k", c5md)], files := [("k", ⟨[7], 300⟩)] }).2.2) :=
  c5_timestamp_repair
    { emptyState with metadata := [("k", c5md)], files := [("k", ⟨[7], 300⟩)] }
    "k" c5md ⟨[7], 300⟩ (by decide) (by decide)

/-! ## Claim C1 — the access-count index under `get` -/

def c1afterSet : CacheState := (set defaultConfig 1000 emptyState (KeyData.str "a") [104, 105]).1

def c1key : String := sha256Hex (strBytes "a")

def c1run : CacheState × Option (List Nat) := get defaultConfig 2000 c1afterSet (KeyData.str "a")

/-- C1, counterexample.  After a successful `get` the entry's `accessCount`
is 1, but `findKeysByAccessCount 1` does not contain its key: the key is still
in the bucket for access count 0 it was indexed under at `set` time, so the
access-count index does not reflect the just-incremented count. -/
theorem c1_counterexample :
    c1run.2 = some [104, 105] ∧
    (mapGet c1run.1.metadata c1key).map CacheMetaData.accessCount = some 1 ∧
    findKeysByAccessCount c1run.1 1 = [] ∧
    findKeysByAccessCount c1run.1 0 = [c1key] := by
  decide

/-- C1, amended: a successful `get` increments the entry's `accessCount` and
refreshes `lastAccessed` in the metadata map, but performs no index update at
all — every index (in particular the access-count index) is exactly as before
the read, so the key stays in the bucket of the access count it was last
indexed under and `findKeysByAccessCount` answers by indexed, not current,
counts. -/
theorem c1_get_updates_count_but_not_index (cfg : CacheConfig) (now : Nat) (s : CacheState)
    (kd : KeyData) (h : (get cfg now s kd).2.isSome = true) :
    (get cfg now s kd).1.sizeIndex = s.sizeIndex ∧
    (get cfg now s kd).1.dateIndex = s.dateIndex ∧
    (get cfg now s kd).1.accessCountIndex = s.accessCountIndex ∧
    (get cfg now s kd).1.contentHashIndex = s.contentHashIndex ∧
    ∃ k md, computeCacheKey cfg kd = Except.ok k ∧ mapGet s.metadata k = some md ∧
      mapGet (get cfg now s kd).1.metadata k =
        some { md with lastAccessed := now, accessCount := md.accessCount + 1 } := by
  unfold get at h ⊢
  cases hck : computeCacheKey cfg kd with
  | error e =>
    simp only [hck] at h
    simp at h
  | ok k =>
    simp only [hck] at h ⊢
    cases hmd : mapGet s.metadata k with
    | none =>
      simp only [hmd] at h
      simp at h
    | some md =>
      simp only [hmd] at h ⊢
      by_cases hexp : md.createdAt < getCutoffDate cfg now s.cachedCutoffDate
      · simp only [hexp, if_true] at h
        simp at h
      · simp only [hexp, if_false] at h ⊢
        cases hf : mapGet s.files k with
        | none =>
          simp only [hf] at h
          simp at h
        | some fi =>
          simp only [hf]
          refine ⟨?_, ?_, ?_, ?_, k, md, ?_, ?_, ?_⟩
          · trivial
          · trivial
          · trivial
          · trivial
          · trivial
          · exact hmd
          · exact mapGet_mapSet_self s.metadata k _

/-- C1 witness for the amended theorem, at the counterexample's own inputs. -/
theorem c1_get_updates_count_but_not_index_witness :
    c1run.1.sizeIndex = c1afterSet.sizeIndex ∧
    c1run.1.dateIndex = c1afterSet.dateIndex ∧
    c1run.1.accessCountIndex = c1afterSet.accessCountIndex ∧
    c1run.1.contentHashIndex = c1afterSet.contentHashIndex ∧
    ∃ k md, computeCacheKey defaultConfig (KeyData.str "a") = Except.ok k ∧
      mapGet c1afterSet.metadata k = some md ∧
      mapGet c1run.1.metadata k =
        some { md with lastAccessed := 2000, accessCount := md.accessCount + 1 } :=
  c1_get_updates_count_but_not_index defaultConfig 2000 c1afterSet (KeyData.str "a") (by decide)

/-! ## Claim C10 — `deleteKey` result semantics -/

/-- C10, confirmed: for a valid key (one whose validation and hashing succeed
with hash `k`), `deleteKey` returns `true` exactly when a metadata entry or an
on-disk file for `k` exists; with neither present it returns `false` and
leaves the state (in particular the metadata map) unchanged; with no metadata
entry but an orphaned file it just deletes the file; with a metadata entry it
removes the entry, the file, and the key's index memberships (the content-hash
bucket via the cached content hash).  No error escapes on any of these
paths. -/
theorem c10_deleteKey_semantics (cfg : CacheConfig) (s : CacheState) (kd : KeyData) (k : String)
    (hck : computeCacheKey cfg kd = Except.ok k) :
    ((deleteKey cfg s kd).2 = true ↔
      ((mapGet s.metadata k).isSome ∨ (mapGet s.files k).isSome)) ∧
    (mapGet s.metadata k = none → mapGet s.files k = none → deleteKey cfg s kd = (s, false)) ∧
    (mapGet s.metadata k = none → (mapGet s.files k).isSome →
      deleteKey cfg s kd = ({ s with files := mapDelete s.files k }, true)) ∧
    (∀ md, mapGet s.metadata k = some md →
      (deleteKey cfg s kd).2 = true ∧
      mapGet (deleteKey cfg s kd).1.metadata k = none ∧
      mapGet (deleteKey cfg s kd).1.files k = none ∧
      ¬ bucketMem (deleteKey cfg s kd).1.sizeIndex md.dataSize k ∧
      ¬ bucketMem (deleteKey cfg s kd).1.dateIndex (dayOf md.createdAt) k ∧
      ¬ bucketMem (deleteKey cfg s kd).1.accessCountIndex md.accessCount k ∧
      (∀ h, mapGet s.contentHashCache k = some h →
        ¬ bucketMem (deleteKey cfg s kd).1.contentHashIndex h k)) := by
  cases hmd : mapGet s.metadata k with
  | none =>
    cases hf : mapGet s.files k with
    | none =>
      have hres : deleteKey cfg s kd = (s, false) := by
        unfold deleteKey
        simp only [hck, hmd, hf]
      refine ⟨?_, fun _ _ => hres, fun _ hf2 => ?_, fun md hmd2 => ?_⟩
      · rw [hres]
        simp
      · simp at hf2
      · exact Option.noConfusion hmd2
    | some fi =>
      have hres : deleteKey cfg s kd = ({ s with files := mapDelete s.files k }, true) := by
        unfold deleteKey
        simp only [hck, hmd, hf]
      refine ⟨?_, fun _ hf2 => ?_, fun _ _ => hres, fun md hmd2 => ?_⟩
      · rw [hres]
        simp
      · exact Option.noConfusion hf2
      · exact Option.noConfusion hmd2
  | some md0 =>
    have hres : deleteKey cfg s kd = (removeEntry s k, true) := by
      unfold deleteKey
      simp only [hck, hmd]
    refine ⟨?_, fun hmd2 => ?_, fun hmd2 => ?_, fun md hmd2 => ?_⟩
    · rw [hres]
      simp
    · exact Option.noConfusion hmd2
    · exact Option.noConfusion hmd2
    have hmd0 : md0 = md := Option.some.inj hmd2
    subst hmd0
    rw [hres]
    refine ⟨rfl, ?_, ?_, ?_, ?_, ?_, ?_⟩
    · rw [removeEntry_metadata]
      exact mapGet_mapDelete_self _ _
    · rw [removeEntry_files]
      exact mapGet_mapDelete_self _ _
    · rw [removeEntry_sizeIndex_of_some s k md0 hmd]
      exact not_bucketMem_bucketDel_self _ _ _
    · rw [removeEntry_dateIndex_of_some s k md0 hmd]
      exact not_bucketMem_bucketDel_self _ _ _
    · rw [removeEntry_accessCountIndex_of_some s k md0 hmd]
      exact not_bucketMem_bucketDel_self _ _ _
    · intro h hch
      rw [removeEntry_contentHashIndex_of_some s k md0 h hmd hch]
      exact not_bucketMem_bucketDel_self _ _ _

def c10state : CacheState := (set defaultConfig 1000 emptyState (KeyData.str "d") [9]).1

def c10key : String := sha256Hex (strBytes "d")

/-- C10 witness: the semantics theorem applied to a one-entry cache. -/
theorem c10_deleteKey_semantics_witness :
    ((deleteKey defaultConfig c10state (KeyData.str "d")).2 = true ↔
      ((mapGet c10state.metadata c10key).isSome ∨ (mapGet c10state.files c10key).isSome)) ∧
    (mapGet c10state.metadata c10key = none → mapGet c10state.files c10key = none →
      deleteKey defaultConfig c10state (KeyData.str "d") = (c10state, false)) ∧
    (mapGet c10state.metadata c10key = none → (mapGet c10state.files c10key).isSome →
      deleteKey defaultConfig c10state (KeyData.str "d") =
        ({ c10state with files := mapDelete c10state.files c10key }, true)) ∧
    (∀ md, mapGet c10state.metadata c10key = some md →
      (deleteKey defaultConfig c10state (KeyData.str "d")).2 = true ∧
      mapGet (deleteKey defaultConfig c10state (KeyData.str "d")).1.metadata c10key = none ∧
      mapGet (deleteKey defaultConfig c10state (KeyData.str "d")).1.files c10key = none ∧
      ¬ bucketMem (deleteKey defaultConfig c10state (KeyData.str "d")).1.sizeIndex
          md.dataSize c10key ∧
      ¬ bucketMem (deleteKey defaultConfig c10state (KeyData.str "d")).1.dateIndex
          (dayOf md.createdAt) c10key ∧
      ¬ bucketMem (deleteKey defaultConfig c10state (KeyData.str "d")).1.accessCountIndex
          md.accessCount c10key ∧
      (∀ h, mapGet c10state.contentHashCache c10key = some h →
        ¬ bucketMem (deleteKey defaultConfig c10state (KeyData.str "d")).1.contentHashIndex
            h c10key)) :=
  c10_deleteKey_semantics defaultConfig c10state (KeyData.str "d") c10key (by decide)


/-! ## Claim C6 — build-as-you-scan in the content search fallback -/

theorem getContentHash_contentHashIndex (s : CacheState) (k : String) (md : CacheMetaData) :
    (getContentHash s k md).1.contentHashIndex = s.contentHashIndex := by
  unfold getContentHash
  cases h1 : mapGet s.contentHashCache k with
  | some h => rfl
  | none =>
    cases h2 : mapGet s.files k with
    | none => rfl
    | some fi =>
      by_cases h3 : fi.data.length ≠ md.dataSize
      · simp [h3]
      · simp [h3]

theorem getContentHash_caches_digest (s : CacheState) (k : String) (md : CacheMetaData)
    (h : String) (hh : (getContentHash s k md).2 = some h) :
    mapGet (getContentHash s k md).1.contentHashCache k = some h := by
  unfold getContentHash at hh ⊢
  cases h1 : mapGet s.contentHashCache k with
  | some h0 =>
    simp only [h1] at hh ⊢
    exact hh
  | none =>
    cases h2 : mapGet s.files k with
    | none => simp [h1, h2] at hh
    | some fi =>
      by_cases h3 : fi.data.length ≠ md.dataSize
      · simp [h1, h2, h3] at hh
      · simp only [h1, h2, h3, if_false] at hh ⊢
        rw [← Option.some.inj hh]
        exact mapGet_mapSet_self _ _ _

theorem processCandidate_index (sh : String) (acc : CacheState × List String)
    (p : String × CacheMetaData) (h : String) (k : String)
    (hmem : bucketMem (processCandidate sh acc p).1.contentHashIndex h k) :
    bucketMem acc.1.contentHashIndex h k ∨ h = sh := by
  unfold processCandidate at hmem
  cases hr : (getContentHash acc.1 p.1 p.2).2 with
  | none =>
    simp only [hr] at hmem
    rw [getContentHash_contentHashIndex] at hmem
    exact Or.inl hmem
  | some hh =>
    simp only [hr] at hmem
    by_cases he : hh = sh
    · simp only [he, if_true] at hmem
      rcases bucketMem_bucketAdd hmem with h1 | h2
      · rw [getContentHash_contentHashIndex] at h1
        exact Or.inl h1
      · exact Or.inr h2.1
    · simp only [he, if_false] at hmem
      rw [getContentHash_contentHashIndex] at hmem
      exact Or.inl hmem

theorem foldl_processCandidate_index (sh : String) (b : List (String × CacheMetaData))
    (acc : CacheState × List String) (h : String) (k : String)
    (hmem : bucketMem (b.foldl (processCandidate sh) acc).1.contentHashIndex h k) :
    bucketMem acc.1.contentHashIndex h k ∨ h = sh := by
  induction b generalizing acc with
  | nil => exact Or.inl hmem
  | cons p ps ih =>
    rw [List.foldl_cons] at hmem
    rcases ih (processCandidate sh acc p) hmem with h1 | h2
    · exact processCandidate_index sh acc p h k h1
    · exact Or.inr h2

theorem scanBatches_index (sh : String) (bs : List (List (String × CacheMetaData)))
    (s : CacheState) (h : String) (k : String)
    (hmem : bucketMem (scanBatches sh bs s).1.contentHashIndex h k) :
    bucketMem s.contentHashIndex h k ∨ h = sh := by
  induction bs generalizing s with
  | nil => exact Or.inl hmem
  | cons b rest ih =>
    rw [scanBatches] at hmem
    cases hh : (b.foldl (processCandidate sh) (s, [])).2.head? with
    | some k0 =>
      simp only [hh] at hmem
      exact foldl_processCandidate_index sh b (s, []) h k hmem
    | none =>
      simp only [hh] at hmem
      rcases ih _ hmem with h1 | h2
      · exact foldl_processCandidate_index sh b (s, []) h k h1
      · exact Or.inr h2

theorem scanAllBatches_index (sh : String) (bs : List (List (String × CacheMetaData)))
    (s : CacheState) (ms : List String) (h : String) (k : String)
    (hmem : bucketMem (scanAllBatches sh bs s ms).1.contentHashIndex h k) :
    bucketMem s.contentHashIndex h k ∨ h = sh := by
  induction bs generalizing s ms with
  | nil => exact Or.inl hmem
  | cons b rest ih =>
    rw [scanAllBatches] at hmem
    rcases ih _ _ hmem with h1 | h2
    · exact foldl_processCandidate_index sh b (s, []) h k h1
    · exact Or.inr h2

def c6md (k : String) : CacheMetaData := ⟨k, 500, 500, 1, 0⟩

def c6state : CacheState :=
  { emptyState with
    metadata := [("k1", c6md "k1"), ("k2", c6md "k2")],
    files := [("k1", ⟨[1], 500⟩), ("k2", ⟨[2], 500⟩)] }

def c6run : CacheState × Option String := findKeyByValue defaultConfig 1000 c6state [1]

/-- C6, counterexample.  Two same-size entries with contents `[1]` and `[2]`;
a fallback scan for `[1]` hashes both candidates (they share one batch).  The
non-matching digest of `"k2"` is recorded in the content-hash CACHE but is NOT
inserted into the content-hash INDEX — only the matching digest of `"k1"` is —
so a later index lookup for the digest of `[2]` still misses, contradicting
the claim that every computed digest is inserted regardless of matching. -/
theorem c6_counterexample :
    c6run.2 = some "k1" ∧
    mapGet c6run.1.contentHashCache "k2" = some (sha256Hex [2]) ∧
    mapGet c6run.1.contentHashIndex (sha256Hex [2]) = none ∧
    mapGet c6run.1.contentHashIndex (sha256Hex [1]) = some ["k1"] := by
  decide

/-- C6, amended: during the fallback scans of `findKeyByValue` and
`findAllKeysByValue`, every successfully computed digest is stored in the
content-hash CACHE, but a candidate is inserted into the content-hash INDEX
only when its digest equals the searched digest: any index membership present
after a search and not before sits under the searched digest's own bucket. -/
theorem c6_index_gains_only_searched_digest (cfg : CacheConfig) (now : Nat) (s : CacheState)
    (v : List Nat) (h : String) (k : String) :
    (bucketMem (findKeyByValue cfg now s v).1.contentHashIndex h k →
      bucketMem s.contentHashIndex h k ∨ h = sha256Hex v) ∧
    (bucketMem (findAllKeysByValue cfg now s v).1.contentHashIndex h k →
      bucketMem s.contentHashIndex h k ∨ h = sha256Hex v) ∧
    (∀ ck md hd, (getContentHash s ck md).2 = some hd →
      mapGet (getContentHash s ck md).1.contentHashCache ck = some hd) := by
  refine ⟨?_, ?_, fun ck md hd => getContentHash_caches_digest s ck md hd⟩
  · intro hmem
    unfold findKeyByValue at hmem
    cases hb : mapGet s.contentHashIndex (sha256Hex v) with
    | some bucket =>
      simp only [hb] at hmem
      by_cases he : bucket.isEmpty
      · simp only [he, if_true] at hmem
        split at hmem
        · exact Or.inl hmem
        · have hres := scanBatches_index (sha256Hex v) _ _ h k hmem
          exact hres
      · simp only [he, if_false] at hmem
        exact Or.inl hmem
    | none =>
      simp only [hb] at hmem
      split at hmem
      · exact Or.inl hmem
      · have hres := scanBatches_index (sha256Hex v) _ _ h k hmem
        exact hres
  · intro hmem
    unfold findAllKeysByValue at hmem
    cases hb : mapGet s.contentHashIndex (sha256Hex v) with
    | some bucket =>
      simp only [hb] at hmem
      by_cases he : bucket.isEmpty
      · simp only [he, if_true] at hmem
        split at hmem
        · exact Or.inl hmem
        · have hres := scanAllBatches_index (sha256Hex v) _ _ _ h k hmem
          exact hres
      · simp only [he, if_false] at hmem
        exact Or.inl hmem
    | none =>
      simp only [hb] at hmem
      split at hmem
      · exact Or.inl hmem
      · have hres := scanAllBatches_index (sha256Hex v) _ _ _ h k hmem
        exact hres

/-- C6 witness: the amended theorem applied to the counterexample scenario. -/
theorem c6_index_gains_only_searched_digest_witness :
    bucketMem c6state.contentHashIndex (sha256Hex [1]) "k1" ∨ sha256Hex [1] = sha256Hex [1] :=
  (c6_index_gains_only_searched_digest defaultConfig 1000 c6state [1]
      (sha256Hex [1]) "k1").1 (by decide)


/-! ## Claim C3 — round-trip `set` then `get` -/

theorem writeFile_lookup_self (now : Nat) (files : List (String × FileInfo)) (k : String)
    (data : List Nat) : ∃ bt, mapGet (writeFile now files k data) k = some ⟨data, bt⟩ := by
  unfold writeFile
  cases h : mapGet files k with
  | some fi => exact ⟨fi.birthtime, mapGet_mapSet_self _ _ _⟩
  | none => exact ⟨now, mapGet_mapSet_self _ _ _⟩

theorem setPrepared_lookups (cfg : CacheConfig) (now : Nat) (s : CacheState) (kd : KeyData)
    (data : List Nat) (k : String) (hck : computeCacheKey cfg kd = Except.ok k) :
    ∃ sp, setPrepared cfg now s kd data = some sp ∧
      mapGet sp.metadata k = some ⟨k, now, now, data.length, 0⟩ ∧
      ∃ bt, mapGet sp.files k = some ⟨data, bt⟩ := by
  unfold setPrepared
  simp only [hck]
  refine ⟨_, rfl, ?_, ?_⟩
  · rw [addToIndexes_metadata]
    cases hold : mapGet ({ s with files := writeFile now s.files k data } : CacheState).metadata k with
    | some oldMd =>
      simp only [hold]
      rw [removeFromIndexes_metadata]
      exact mapGet_mapSet_self _ _ _
    | none =>
      simp only [hold]
      exact mapGet_mapSet_self _ _ _
  · rw [addToIndexes_files]
    cases hold : mapGet ({ s with files := writeFile now s.files k data } : CacheState).metadata k with
    | some oldMd =>
      simp only [hold]
      rw [removeFromIndexes_files]
      exact writeFile_lookup_self now s.files k data
    | none =>
      simp only [hold]
      exact writeFile_lookup_self now s.files k data

theorem evictLoop_preserves (maxB cur : Nat) (victims : List (String × CacheMetaData))
    (rem : Nat) (s : CacheState) (k : String) (md : CacheMetaData)
    (h : mapGet (evictLoop maxB cur victims rem s).metadata k = some md) :
    mapGet s.metadata k = some md ∧
      mapGet (evictLoop maxB cur victims rem s).files k = mapGet s.files k := by
  induction victims generalizing rem s with
  | nil => exact ⟨h, rfl⟩
  | cons p rest ih =>
    rw [evictLoop] at h ⊢
    by_cases hc : cur - rem ≤ maxB
    · rw [if_pos hc] at h ⊢
      exact ⟨h, rfl⟩
    · rw [if_neg hc] at h ⊢
      obtain ⟨h1, h2⟩ := ih (rem + p.2.dataSize) (removeEntry s p.1) h
      rw [removeEntry_metadata] at h1
      by_cases hk : k = p.1
      · rw [hk, mapGet_mapDelete_self] at h1
        cases h1
      · rw [mapGet_mapDelete_ne _ _ _ hk] at h1
        refine ⟨h1, ?_⟩
        rw [h2, removeEntry_files, mapGet_mapDelete_ne _ _ _ hk]

/-- C3, confirmed: a successful `set(k, v)` followed by `get(k)` on the
resulting state — provided the new entry survived the synchronous size
enforcement (no eviction removed it) and the expiry cutoff in effect at the
`get` does not postdate the write — returns exactly the stored bytes `v`. -/
theorem c3_round_trip (cfg : CacheConfig) (now now2 : Nat) (s : CacheState) (kd : KeyData)
    (v : List Nat) (k : String)
    (hck : computeCacheKey cfg kd = Except.ok k)
    (hsurv : (mapGet (set cfg now s kd v).1.metadata k).isSome = true)
    (hfresh : getCutoffDate cfg now2 (set cfg now s kd v).1.cachedCutoffDate ≤ now) :
    (get cfg now2 (set cfg now s kd v).1 kd).2 = some v := by
  obtain ⟨sp, hsp, hmd0, bt, hfi0⟩ := setPrepared_lookups cfg now s kd v k hck
  have hset : (set cfg now s kd v).1 = enforceMaxCacheSize cfg sp := by
    unfold set
    rw [hsp]
  rw [hset] at hsurv hfresh ⊢
  unfold enforceMaxCacheSize at hsurv hfresh ⊢
  cases hm1 : mapGet (evictLoop cfg.maxSizeBytes (getCurrentCacheSize sp)
      (sortByLastAccessed sp.metadata) 0 sp).metadata k with
  | none => rw [hm1] at hsurv; simp at hsurv
  | some md1 =>
    obtain ⟨hpre, hfiles⟩ := evictLoop_preserves _ _ _ _ _ _ _ hm1
    have hmd1 : md1 = ⟨k, now, now, v.length, 0⟩ := Option.some.inj (hpre.symm.trans hmd0)
    unfold get
    simp only [hck, hm1, hmd1]
    have hnexp : ¬ (now < getCutoffDate cfg now2 (evictLoop cfg.maxSizeBytes
        (getCurrentCacheSize sp) (sortByLastAccessed sp.metadata) 0 sp).cachedCutoffDate) :=
      Nat.not_lt.mpr hfresh
    simp only [hnexp, if_false]
    have hfi1 : mapGet (evictLoop cfg.maxSizeBytes (getCurrentCacheSize sp)
        (sortByLastAccessed sp.metadata) 0 sp).files k = some ⟨v, bt⟩ := by
      rw [hfiles]
      exact hfi0
    simp only [hfi1]

/-- C3 witness at a concrete one-entry run. -/
theorem c3_round_trip_witness :
    (get defaultConfig 2000 (set defaultConfig 1000 emptyState (KeyData.str "rt") [104, 105]).1
        (KeyData.str "rt")).2 = some [104, 105] :=
  c3_round_trip defaultConfig 1000 2000 emptyState (KeyData.str "rt") [104, 105]
    (sha256Hex (strBytes "rt")) (by decide) (by decide) (by decide)


/-! ## Claim C4 — size invariant with LRU victim selection -/

theorem mapDelete_eq_filter (l : List (κ × β)) (k : κ) :
    mapDelete l k = l.filter (fun q => decide (q.1 ≠ k)) := by
  induction l with
  | nil => rfl
  | cons p ps ih =>
    rw [mapDelete, List.filter_cons]
    by_cases h : p.1 = k
    · simp [h, ih]
    · simp [h, ih]

theorem entriesSize_eq_sum (l : List (String × CacheMetaData)) :
    entriesSize l = (l.map (fun p => p.2.dataSize)).sum := by
  induction l with
  | nil => rfl
  | cons p ps ih => rw [entriesSize, List.map_cons, List.sum_cons, ih]

theorem entriesSize_perm {l1 l2 : List (String × CacheMetaData)} (h : l1.Perm l2) :
    entriesSize l1 = entriesSize l2 := by
  rw [entriesSize_eq_sum, entriesSize_eq_sum]
  exact (h.map (fun p => p.2.dataSize)).sum_eq

theorem fst_mapSet (l : List (κ × β)) (k : κ) (v : β) :
    (mapSet l k v).map Prod.fst =
      if k ∈ l.map Prod.fst then l.map Prod.fst else l.map Prod.fst ++ [k] := by
  induction l with
  | nil => simp [mapSet]
  | cons p ps ih =>
    rw [mapSet]
    by_cases h : p.1 = k
    · simp [h]
    · have hne : ¬ k = p.1 := fun hh => h hh.symm
      simp only [if_neg h, List.map_cons]
      rw [ih]
      by_cases hm : k ∈ ps.map Prod.fst
      · simp [hm, hne]
      · simp [hm, hne]

theorem nodup_keys_mapSet (l : List (κ × β)) (k : κ) (v : β)
    (h : (l.map Prod.fst).Nodup) : ((mapSet l k v).map Prod.fst).Nodup := by
  rw [fst_mapSet]
  by_cases hm : k ∈ l.map Prod.fst
  · simpa [hm] using h
  · simp only [hm, if_false]
    simp [List.nodup_append, h, hm]

theorem perm_mapDelete_head {l : List (String × CacheMetaData)} {p : String × CacheMetaData}
    {rest : List (String × CacheMetaData)} (hperm : l.Perm (p :: rest))
    (hnodup : p.1 ∉ rest.map Prod.fst) :
    (mapDelete l p.1).Perm rest := by
  rw [mapDelete_eq_filter]
  have h1 := hperm.filter (fun q => decide (q.1 ≠ p.1))
  rw [List.filter_cons] at h1
  have hself : (decide (p.1 ≠ p.1)) = false := by simp
  rw [hself] at h1
  simp only [Bool.false_eq_true, if_false] at h1
  have h2 : rest.filter (fun q => decide (q.1 ≠ p.1)) = rest := by
    apply List.filter_eq_self.mpr
    intro q hq
    have : q.1 ≠ p.1 := by
      intro he
      exact hnodup (he ▸ List.mem_map_of_mem Prod.fst hq)
    simpa using this
  rw [h2] at h1
  exact h1

theorem evictLoop_spec (maxB cur : Nat) (victims : List (String × CacheMetaData))
    (rem : Nat) (s : CacheState)
    (hperm : s.metadata.Perm victims)
    (hnd : (victims.map Prod.fst).Nodup)
    (hsz : entriesSize s.metadata + rem = cur) :
    ∃ n, n ≤ victims.length ∧
      (evictLoop maxB cur victims rem s).metadata =
        s.metadata.filter (fun q => decide (q.1 ∉ (victims.take n).map Prod.fst)) ∧
      entriesSize (evictLoop maxB cur victims rem s).metadata ≤ maxB ∧
      ∀ m, m < n → maxB < cur - (rem + entriesSize (victims.take m)) := by
  induction victims generalizing rem s with
  | nil =>
    have hnil : s.metadata = [] := hperm.eq_nil
    refine ⟨0, Nat.zero_le _, ?_, ?_, fun m hm => absurd hm (Nat.not_lt_zero m)⟩
    · rw [evictLoop, hnil]
      rfl
    · rw [evictLoop, hnil]
      exact Nat.zero_le _
  | cons p rest ih =>
    rw [evictLoop]
    by_cases hc : cur - rem ≤ maxB
    · rw [if_pos hc]
      refine ⟨0, Nat.zero_le _, ?_, ?_, fun m hm => absurd hm (Nat.not_lt_zero m)⟩
      · symm
        apply List.filter_eq_self.mpr
        intro q hq
        simp
      · omega
    · rw [if_neg hc]
      have hndrest : (rest.map Prod.fst).Nodup := by
        rw [List.map_cons] at hnd
        exact hnd.of_cons
      have hnotmem : p.1 ∉ rest.map Prod.fst := by
        rw [List.map_cons] at hnd
        exact (List.nodup_cons.mp hnd).1
      have hperm2 : (removeEntry s p.1).metadata.Perm rest := by
        rw [removeEntry_metadata]
        exact perm_mapDelete_head hperm hnotmem
      have hsz2 : entriesSize (removeEntry s p.1).metadata + (rem + p.2.dataSize) = cur := by
        have e1 : entriesSize s.metadata = p.2.dataSize + entriesSize rest := by
          rw [entriesSize_perm hperm]
          rfl
        have e2 : entriesSize (removeEntry s p.1).metadata = entriesSize rest :=
          entriesSize_perm hperm2
        omega
      obtain ⟨n1, hlen, hmeta, hsize, hmin⟩ := ih (rem + p.2.dataSize) (removeEntry s p.1)
        hperm2 hndrest hsz2
      refine ⟨n1 + 1, by simpa using Nat.succ_le_succ hlen, ?_, hsize, ?_⟩
      · rw [hmeta, removeEntry_metadata, mapDelete_eq_filter, List.filter_filter]
        apply List.filter_congr
        intro q hq
        by_cases h1 : q.1 = p.1 <;> by_cases h2 : q.1 ∈ (rest.take n1).map Prod.fst <;>
          simp [h1, h2]
      · intro m hm
        cases m with
        | zero =>
          simp only [List.take_zero, entriesSize, Nat.add_zero]
          omega
        | succ m1 =>
          have hmin1 := hmin m1 (Nat.lt_of_succ_lt_succ hm)
          have : entriesSize ((p :: rest).take (m1 + 1)) =
              p.2.dataSize + entriesSize (rest.take m1) := by
            rw [List.take_succ_cons]
            rfl
          omega

/-- The LRU eviction contract of `enforceMaxCacheSize`: some prefix of the
entries sorted by ascending `lastAccessed` is removed; afterwards the
aggregate `dataSize` is within the limit; and removal stopped as soon as
possible (before each performed removal, the aggregate minus what had been
removed so far still exceeded the limit). -/
def lruEnforceSpec (maxB : Nat) (pre post : CacheState) : Prop :=
  ∃ n, n ≤ (sortByLastAccessed pre.metadata).length ∧
    post.metadata = pre.metadata.filter
      (fun q => decide (q.1 ∉ ((sortByLastAccessed pre.metadata).take n).map Prod.fst)) ∧
    entriesSize post.metadata ≤ maxB ∧
    ∀ m, m < n →
      maxB < entriesSize pre.metadata - entriesSize ((sortByLastAccessed pre.metadata).take m)

instance : IsTotal (String × CacheMetaData)
    (fun p q => p.2.lastAccessed ≤ q.2.lastAccessed) :=
  ⟨fun a b => Nat.le_total a.2.lastAccessed b.2.lastAccessed⟩

instance : IsTrans (String × CacheMetaData)
    (fun p q => p.2.lastAccessed ≤ q.2.lastAccessed) :=
  ⟨fun _ _ _ hab hbc => Nat.le_trans hab hbc⟩

theorem enforceMaxCacheSize_spec (cfg : CacheConfig) (s : CacheState)
    (hnd : (s.metadata.map Prod.fst).Nodup) :
    lruEnforceSpec cfg.maxSizeBytes s (enforceMaxCacheSize cfg s) := by
  unfold enforceMaxCacheSize lruEnforceSpec
  have hperm : s.metadata.Perm (sortByLastAccessed s.metadata) :=
    (List.perm_insertionSort _ _).symm
  have hndsorted : ((sortByLastAccessed s.metadata).map Prod.fst).Nodup :=
    ((hperm.map Prod.fst).nodup_iff).mp hnd
  have hsz : entriesSize s.metadata + 0 = getCurrentCacheSize s := Nat.add_zero _
  obtain ⟨n, hlen, hmeta, hsize, hmin⟩ := evictLoop_spec cfg.maxSizeBytes
    (getCurrentCacheSize s) (sortByLastAccessed s.metadata) 0 s hperm hndsorted hsz
  refine ⟨n, hlen, hmeta, hsize, fun m hm => ?_⟩
  have := hmin m hm
  have hcur : getCurrentCacheSize s = entriesSize s.metadata := rfl
  omega

theorem setPrepared_metadata (cfg : CacheConfig) (now : Nat) (s : CacheState) (kd : KeyData)
    (data : List Nat) (k : String) (sp : CacheState)
    (hck : computeCacheKey cfg kd = Except.ok k)
    (hsp : setPrepared cfg now s kd data = some sp) :
    sp.metadata = mapSet s.metadata k ⟨k, now, now, data.length, 0⟩ := by
  unfold setPrepared at hsp
  simp only [hck] at hsp
  rw [← Option.some.inj hsp]
  rw [addToIndexes_metadata]
  cases hold : mapGet ({ s with files := writeFile now s.files k data } : CacheState).metadata k with
  | some oldMd =>
    simp only [hold]
    rw [removeFromIndexes_metadata]
  | none => simp only [hold]

/-- C4, confirmed (with the entry map's keys distinct, as for any JS `Map`):
when `set` returns `true`, the aggregate `dataSize` over all metadata entries
is at most the configured maximum; moreover the state `set` returns is
`enforceMaxCacheSize` applied to the pre-enforcement state `sp`, the eviction
order `sortByLastAccessed sp.metadata` is ascending in `lastAccessed`, and the
eviction removed exactly a minimal prefix of that order — stopping as soon as
the aggregate was at or below the limit (`lruEnforceSpec`). -/
theorem c4_size_invariant_lru (cfg : CacheConfig) (now : Nat) (s : CacheState) (kd : KeyData)
    (v : List Nat) (hnd : (s.metadata.map Prod.fst).Nodup)
    (hset : (set cfg now s kd v).2 = true) :
    getCurrentCacheSize (set cfg now s kd v).1 ≤ cfg.maxSizeBytes ∧
    ∃ sp, setPrepared cfg now s kd v = some sp ∧
      (set cfg now s kd v).1 = enforceMaxCacheSize cfg sp ∧
      List.Sorted (fun p q : String × CacheMetaData => p.2.lastAccessed ≤ q.2.lastAccessed)
        (sortByLastAccessed sp.metadata) ∧
      lruEnforceSpec cfg.maxSizeBytes sp (enforceMaxCacheSize cfg sp) := by
  cases hsp : setPrepared cfg now s kd v with
  | none =>
    unfold set at hset
    rw [hsp] at hset
    cases hset
  | some sp =>
    have hres : (set cfg now s kd v).1 = enforceMaxCacheSize cfg sp := by
      unfold set
      rw [hsp]
    cases hck : computeCacheKey cfg kd with
    | error e =>
      unfold setPrepared at hsp
      rw [hck] at hsp
      cases hsp
    | ok k =>
      have hndsp : (sp.metadata.map Prod.fst).Nodup := by
        rw [setPrepared_metadata cfg now s kd v k sp hck hsp]
        exact nodup_keys_mapSet s.metadata k _ hnd
      have hspec := enforceMaxCacheSize_spec cfg sp hndsp
      refine ⟨?_, sp, rfl, hres, ?_, hspec⟩
      · obtain ⟨n, _, _, hsize, _⟩ := hspec
        rw [hres]
        exact hsize
      · exact List.sorted_insertionSort _ _

/-- C4 witness: a 1-byte cache limit forces the second `set` to evict the
older entry; the theorem applies with both hypotheses discharged. -/
theorem c4_size_invariant_lru_witness :
    getCurrentCacheSize (set { defaultConfig with maxSizeBytes := 1 } 2000
        (set { defaultConfig with maxSizeBytes := 1 } 1000 emptyState
          (KeyData.str "x") [1]).1 (KeyData.str "y") [2]).1 ≤
      ({ defaultConfig with maxSizeBytes := 1 } : CacheConfig).maxSizeBytes ∧
    ∃ sp, setPrepared { defaultConfig with maxSizeBytes := 1 } 2000
        (set { defaultConfig with maxSizeBytes := 1 } 1000 emptyState
          (KeyData.str "x") [1]).1 (KeyData.str "y") [2] = some sp ∧
      (set { defaultConfig with maxSizeBytes := 1 } 2000
        (set { defaultConfig with maxSizeBytes := 1 } 1000 emptyState
          (KeyData.str "x") [1]).1 (KeyData.str "y") [2]).1 =
        enforceMaxCacheSize { defaultConfig with maxSizeBytes := 1 } sp ∧
      List.Sorted (fun p q : String × CacheMetaData => p.2.lastAccessed ≤ q.2.lastAccessed)
        (sortByLastAccessed sp.metadata) ∧
      lruEnforceSpec ({ defaultConfig with maxSizeBytes := 1 } : CacheConfig).maxSizeBytes sp
        (enforceMaxCacheSize { defaultConfig with maxSizeBytes := 1 } sp) :=
  c4_size_invariant_lru { defaultConfig with maxSizeBytes := 1 } 2000
    (set { defaultConfig with maxSizeBytes := 1 } 1000 emptyState (KeyData.str "x") [1]).1
    (KeyData.str "y") [2] (by decide) (by decide)


/-! ## Claims C7 / C8 — key normalization: field order, rounding, null vs absent -/

theorem charToNat_inj {a b : Char} (h : a.toNat = b.toNat) : a = b := by
  apply Char.ext
  apply UInt32.ext
  exact h

theorem charListLt_irrefl (as : List Char) : charListLt as as = false := by
  induction as with
  | nil => rfl
  | cons a l ih => simp [charListLt, ih]

theorem charListLt_trans {as bs cs : List Char} (h1 : charListLt as bs = true)
    (h2 : charListLt bs cs = true) : charListLt as cs = true := by
  induction as generalizing bs cs with
  | nil =>
    cases bs with
    | nil => simp [charListLt] at h1
    | cons b m =>
      cases cs with
      | nil => simp [charListLt] at h2
      | cons c o => rfl
  | cons a l ih =>
    cases bs with
    | nil => simp [charListLt] at h1
    | cons b m =>
      cases cs with
      | nil => simp [charListLt] at h2
      | cons c o =>
        rw [charListLt] at h1 h2 ⊢
        by_cases hab : a.toNat < b.toNat
        · by_cases hbc : b.toNat < c.toNat
          · simp [Nat.lt_trans hab hbc]
          · by_cases hcb : c.toNat < b.toNat
            · simp [hbc, hcb] at h2
            · have hac : a.toNat < c.toNat := by omega
              simp [hac]
        · by_cases hba : b.toNat < a.toNat
          · simp [hab, hba] at h1
          · by_cases hbc : b.toNat < c.toNat
            · have hac : a.toNat < c.toNat := by omega
              simp [hac]
            · by_cases hcb : c.toNat < b.toNat
              · simp [hbc, hcb] at h2
              · simp only [hab, hba, if_false] at h1
                simp only [hbc, hcb, if_false] at h2
                have hac1 : ¬ a.toNat < c.toNat := by omega
                have hac2 : ¬ c.toNat < a.toNat := by omega
                simp only [hac1, hac2, if_false]
                exact ih h1 h2

theorem charListLt_trichotomy (as bs : List Char) :
    charListLt as bs = true ∨ charListLt bs as = true ∨ as = bs := by
  induction as generalizing bs with
  | nil =>
    cases bs with
    | nil => exact Or.inr (Or.inr rfl)
    | cons b m => exact Or.inl rfl
  | cons a l ih =>
    cases bs with
    | nil => exact Or.inr (Or.inl rfl)
    | cons b m =>
      by_cases hab : a.toNat < b.toNat
      · exact Or.inl (by rw [charListLt]; simp [hab])
      · by_cases hba : b.toNat < a.toNat
        · exact Or.inr (Or.inl (by rw [charListLt]; simp [hba, Nat.lt_asymm hba]))
        · have heq : a = b := charToNat_inj (by omega)
          subst heq
          rcases ih m with h | h | h
          · exact Or.inl (by rw [charListLt]; simp [Nat.lt_irrefl, h])
          · exact Or.inr (Or.inl (by rw [charListLt]; simp [Nat.lt_irrefl, h]))
          · exact Or.inr (Or.inr (by rw [h]))

theorem charListLt_asymm {as bs : List Char} (h : charListLt as bs = true) :
    charListLt bs as = false := by
  by_contra hc
  rw [Bool.not_eq_false] at hc
  have htrans := charListLt_trans h hc
  rw [charListLt_irrefl] at htrans
  cases htrans

theorem strData_inj {a b : String} (h : a.data = b.data) : a = b := by
  cases a
  cases b
  exact congrArg String.mk h

instance : IsTotal String (fun a b => strLeJS a b = true) := by
  constructor
  intro a b
  rcases charListLt_trichotomy a.data b.data with h | h | h
  · exact Or.inl (by rw [strLeJS, charListLt_asymm h]; rfl)
  · exact Or.inr (by rw [strLeJS, charListLt_asymm h]; rfl)
  · exact Or.inl (by rw [strLeJS, h, charListLt_irrefl]; rfl)

instance : IsTrans String (fun a b => strLeJS a b = true) := by
  constructor
  intro a b c hab hbc
  rw [strLeJS, Bool.not_eq_true'] at hab hbc
  rw [strLeJS, Bool.not_eq_true']
  cases hca : charListLt c.data a.data with
  | false => rfl
  | true =>
    exfalso
    rcases charListLt_trichotomy b.data c.data with h | h | h
    · rw [charListLt_trans h hca] at hab
      cases hab
    · rw [h] at hbc
      cases hbc
    · rw [← h] at hca
      rw [hca] at hab
      cases hab

instance : IsAntisymm String (fun a b => strLeJS a b = true) := by
  constructor
  intro a b hab hba
  rw [strLeJS, Bool.not_eq_true'] at hab hba
  rcases charListLt_trichotomy a.data b.data with h | h | h
  · rw [h] at hba
    cases hba
  · rw [h] at hab
    cases hab
  · exact strData_inj h

theorem sortStrings_eq_of_perm {l1 l2 : List String} (h : l1.Perm l2) :
    sortStrings l1 = sortStrings l2 :=
  List.eq_of_perm_of_sorted (r := fun a b => strLeJS a b = true)
    ((List.perm_insertionSort _ l1).trans (h.trans (List.perm_insertionSort _ l2).symm))
    (List.sorted_insertionSort _ l1) (List.sorted_insertionSort _ l2)

theorem fst_toPairs : (fs : KeyFields) → fs.toPairs.map Prod.fst = fs.names
  | .nil => rfl
  | .cons k v fs => by
    rw [KeyFields.toPairs, KeyFields.names, List.map_cons, fst_toPairs fs]

theorem names_normFields (prec : Nat) : (fs : KeyFields) →
    (normFields prec fs).names = fs.names
  | .nil => rfl
  | .cons k v fs => by
    rw [normFields, KeyFields.names, KeyFields.names, names_normFields prec fs]

theorem getField_normFields (prec : Nat) : (fs : KeyFields) → (n : String) →
    (normFields prec fs).getField n = (fs.getField n).map (normalizeForHashing prec)
  | .nil, n => rfl
  | .cons k v fs, n => by
    rw [normFields, KeyFields.getField, KeyFields.getField]
    by_cases h : k = n
    · simp [h]
    · simp [h, getField_normFields prec fs n]

theorem getField_eq_mapGet : (fs : KeyFields) → (n : String) →
    fs.getField n = mapGet fs.toPairs n
  | .nil, _ => rfl
  | .cons k v fs, n => by
    rw [KeyFields.getField, KeyFields.toPairs, mapGet, getField_eq_mapGet fs n]

theorem mapGet_eq_none_iff (l : List (κ × β)) (k : κ) :
    mapGet l k = none ↔ k ∉ l.map Prod.fst := by
  induction l with
  | nil => simp [mapGet]
  | cons p ps ih =>
    by_cases h : p.1 = k
    · rw [mapGet, if_pos h]
      simp [h]
    · rw [mapGet, if_neg h, ih, List.map_cons]
      simp only [List.mem_cons]
      constructor
      · intro hnm hor
        rcases hor with h1 | h2
        · exact h h1.symm
        · exact hnm h2
      · intro hnm hmem
        exact hnm (Or.inr hmem)

theorem mapGet_of_mem_nodup {l : List (κ × β)} {k : κ} {v : β}
    (hmem : (k, v) ∈ l) (hnd : (l.map Prod.fst).Nodup) : mapGet l k = some v := by
  induction l with
  | nil => cases hmem
  | cons p ps ih =>
    rw [List.map_cons, List.nodup_cons] at hnd
    rcases List.mem_cons.mp hmem with h | h
    · rw [← h, mapGet, if_pos rfl]
    · have hne : p.1 ≠ k := by
        intro he
        exact hnd.1 (he ▸ List.mem_map_of_mem Prod.fst h)
      rw [mapGet, if_neg hne]
      exact ih h hnd.2

theorem mapGet_perm_of_nodup {l1 l2 : List (κ × β)} (hp : l1.Perm l2)
    (hnd : (l1.map Prod.fst).Nodup) (k : κ) : mapGet l1 k = mapGet l2 k := by
  cases h1 : mapGet l1 k with
  | none =>
    symm
    rw [mapGet_eq_none_iff] at h1 ⊢
    intro hmem
    exact h1 (((hp.map Prod.fst).mem_iff).mpr hmem)
  | some v =>
    symm
    exact mapGet_of_mem_nodup (hp.subset (mapGet_some_mem h1))
      (((hp.map Prod.fst).nodup_iff).mp hnd)

theorem normalizeForHashing_obj_perm (prec : Nat) (fs fs2 : KeyFields)
    (hperm : fs.toPairs.Perm fs2.toPairs) (hnd : fs.names.Nodup) :
    normalizeForHashing prec (KeyData.obj fs) = normalizeForHashing prec (KeyData.obj fs2) := by
  have hnames : fs.names.Perm fs2.names := by
    rw [← fst_toPairs, ← fst_toPairs]
    exact hperm.map Prod.fst
  have hndp : (fs.toPairs.map Prod.fst).Nodup := by
    rw [fst_toPairs]
    exact hnd
  have hget : ∀ n, (normFields prec fs).getField n = (normFields prec fs2).getField n := by
    intro n
    rw [getField_normFields, getField_normFields]
    rw [getField_eq_mapGet, getField_eq_mapGet, mapGet_perm_of_nodup hperm hndp n]
  simp only [normalizeForHashing]
  unfold sortFieldsByName
  rw [names_normFields, names_normFields, sortStrings_eq_of_perm hnames]
  congr 1
  apply congrArg KeyFields.ofPairs
  apply List.map_congr_left
  intro n hn
  exact congrArg (fun o => (n, Option.getD o KeyData.undef)) (hget n)

/-- C7, counterexample.  `1.1` and `1.1000000001` differ by exactly `10⁻¹⁰`;
the spec's example says they must hash identically with the default precision
of 10, but `toFixed(10)` keeps 10 decimal digits, so `1.1000000001` survives
rounding unchanged (`"1.1000000001"` vs `"1.1"`) and the two hashes differ. -/
theorem c7_counterexample :
    generateCacheKey defaultConfig.floatingPointPrecision (KeyData.num 11 1) ≠
      generateCacheKey defaultConfig.floatingPointPrecision (KeyData.num 11000000001 10) := by
  decide

/-- C7, amended: keys that differ only in the ordering of object fields hash
identically (for any precision; field names are distinct as in any JS object),
and numbers that differ only BEYOND the 10th decimal place hash identically
with the default precision — e.g. `1.1` and `1.10000000001` (11 decimals, the
example in the source comment); a difference in the 10th decimal itself, such
as `1.1000000001`, is preserved. -/
theorem c7_field_order_and_rounding (prec : Nat) (fs fs2 : KeyFields)
    (hperm : fs.toPairs.Perm fs2.toPairs) (hnd : fs.names.Nodup) :
    generateCacheKey prec (KeyData.obj fs) = generateCacheKey prec (KeyData.obj fs2) ∧
    generateCacheKey defaultConfig.floatingPointPrecision (KeyData.num 11 1) =
      generateCacheKey defaultConfig.floatingPointPrecision (KeyData.num 110000000001 11) := by
  constructor
  · simp only [generateCacheKey]
    rw [normalizeForHashing_obj_perm prec fs fs2 hperm hnd]
  · decide

/-- C7 witness: the two-field object with its fields swapped. -/
theorem c7_field_order_and_rounding_witness :
    generateCacheKey 10 (KeyData.obj (KeyFields.cons "a" (KeyData.num 1 0)
        (KeyFields.cons "b" KeyData.null KeyFields.nil))) =
      generateCacheKey 10 (KeyData.obj (KeyFields.cons "b" KeyData.null
        (KeyFields.cons "a" (KeyData.num 1 0) KeyFields.nil))) ∧
    generateCacheKey defaultConfig.floatingPointPrecision (KeyData.num 11 1) =
      generateCacheKey defaultConfig.floatingPointPrecision (KeyData.num 110000000001 11) :=
  c7_field_order_and_rounding 10
    (KeyFields.cons "a" (KeyData.num 1 0) (KeyFields.cons "b" KeyData.null KeyFields.nil))
    (KeyFields.cons "b" KeyData.null (KeyFields.cons "a" (KeyData.num 1 0) KeyFields.nil))
    (List.Perm.swap ("b", KeyData.null) ("a", KeyData.num 1 0) [])
    (by decide)

/-- C8, counterexample.  As array elements, `null` and `undefined` serialize
identically (`JSON.stringify` maps an `undefined` element to `null`), so
`[null]` and `[undefined]` produce the SAME cache key, contradicting the claim
that they hash differently in array positions. -/
theorem c8_counterexample :
    generateCacheKey defaultConfig.floatingPointPrecision
        (KeyData.arr (KeyList.cons KeyData.null KeyList.nil)) =
      generateCacheKey defaultConfig.floatingPointPrecision
        (KeyData.arr (KeyList.cons KeyData.undef KeyList.nil)) := by
  decide

/-- C8, amended: as an OBJECT FIELD value, `null`, `undefined` and a normal
value produce three pairwise different hashes (an `undefined` field is dropped
by serialization, `null` is kept); as an ARRAY element, `null` and `undefined`
hash identically (both serialize as `null`), though both still differ from a
normal value at that position. -/
theorem c8_null_undef_distinctness :
    (generateCacheKey defaultConfig.floatingPointPrecision
        (KeyData.obj (KeyFields.cons "a" KeyData.null KeyFields.nil)) ≠
      generateCacheKey defaultConfig.floatingPointPrecision
        (KeyData.obj (KeyFields.cons "a" KeyData.undef KeyFields.nil))) ∧
    (generateCacheKey defaultConfig.floatingPointPrecision
        (KeyData.obj (KeyFields.cons "a" KeyData.null KeyFields.nil)) ≠
      generateCacheKey defaultConfig.floatingPointPrecision
        (KeyData.obj (KeyFields.cons "a" (KeyData.num 1 0) KeyFields.nil))) ∧
    (generateCacheKey defaultConfig.floatingPointPrecision
        (KeyData.obj (KeyFields.cons "a" KeyData.undef KeyFields.nil)) ≠
      generateCacheKey defaultConfig.floatingPointPrecision
        (KeyData.obj (KeyFields.cons "a" (KeyData.num 1 0) KeyFields.nil))) ∧
    (generateCacheKey defaultConfig.floatingPointPrecision
        (KeyData.arr (KeyList.cons KeyData.null KeyList.nil)) =
      generateCacheKey defaultConfig.floatingPointPrecision
        (KeyData.arr (KeyList.cons KeyData.undef KeyList.nil))) ∧
    (generateCacheKey defaultConfig.floatingPointPrecision
        (KeyData.arr (KeyList.cons KeyData.null KeyList.nil)) ≠
      generateCacheKey defaultConfig.floatingPointPrecision
        (KeyData.arr (KeyList.cons (KeyData.num 1 0) KeyList.nil))) := by
  decide

end Disky

